import Mathlib

/-!
# Verification of the `git-config` document model and the `clean` classifier

Shallow embedding of `src/git-config/src/config.rs` (the `GitConfig` document
model: builder, queries, mutation, textual reconstruction) and of
`src/gitoxide-core/src/repository/clean.rs` (the per-entry decision pipeline
of the `clean` subcommand), together with proofs about the embedded code.

Modelling conventions:
* Byte strings (`bstr::BStr` / `Cow<BStr>`) are `List Nat` of byte values.
* `std::collections::HashMap` is an association list; lookups go through
  `assocFind`, which matches the first entry with the given key, and inserts
  of fresh keys append at the end.  `HashMap` *iteration* order is
  unspecified in Rust, so functions that iterate a map (only
  `get_raw_multi_value_mut` and its callers do) take the iteration order as
  an explicit parameter, constrained to be a permutation of the stored keys.
* Panics (`expect`, `unwrap`) are modelled by `Option`/error results where
  they are reachable, and are guarded by the proved invariants where the
  source relies on an invariant.
-/


/-- Byte strings: `bstr::BStr` modelled as a list of byte values. -/
abbrev Bytes := List Nat

/-- Build a byte string from an ASCII string literal (test helper). -/
def bs (s : String) : Bytes := s.toList.map Char.toNat

/-- `ParsedSectionHeader` from the upstream parser: a section name, an
optional subsection name, and `raw`, the exact source bytes of the header.
Modelled from the spec: the parser itself is not under `src/`; per §4.6 the
header is "rendered exactly as it was parsed — the header's own byte
representation is retained by the upstream parser", so we keep those bytes
in the `raw` field and render a header as `raw`. -/
structure ParsedSectionHeader where
  name : Bytes
  subsectionName : Option Bytes
  raw : Bytes
deriving DecidableEq, Repr

/-- `Event` from the upstream parser (`crate::parser::Event`). -/
inductive Event where
  | sectionHeader (h : ParsedSectionHeader)
  | key (k : Bytes)
  | value (v : Bytes)
  | valueNotDone (v : Bytes)
  | valueDone (v : Bytes)
  | keyValueSeparator
  | comment (b : Bytes)
  | newline (b : Bytes)
  | whitespace (b : Bytes)
deriving DecidableEq, Repr

/-- Rendering of one event to its source bytes.  Modelled from the spec:
the `Display` impls live in the parser module which is not under `src/`;
per §1/§4.6 every event carries and reproduces its exact source bytes
(the key/value separator is the `=` sign, byte 61). -/
def renderEvent : Event → Bytes
  | .sectionHeader h => h.raw
  | .key k => k
  | .value v => v
  | .valueNotDone v => v
  | .valueDone v => v
  | .keyValueSeparator => [61]
  | .comment b => b
  | .newline b => b
  | .whitespace b => b

/-- Concatenated rendering of a list of events. -/
def renderEvents (evs : List Event) : Bytes := (evs.map renderEvent).flatten

/-- The byte string an event stream was parsed from.  Modelled from the
spec: the upstream parser is lossless (§1 "preserves every byte of the
original source"), so the input byte string is exactly the concatenation
of the source bytes of the events it produced. -/
def renderStream (evs : List Event) : Bytes := renderEvents evs

/-- `GitConfigError` from `config.rs`. -/
inductive GitConfigError where
  | sectionDoesNotExist (n : Bytes)
  | subSectionDoesNotExist (s : Option Bytes)
  | keyDoesNotExist (k : Bytes)
deriving DecidableEq, Repr

/-- `Result<α, GitConfigError>`. -/
inductive CfgResult (α : Type) where
  | ok (a : α)
  | err (e : GitConfigError)
deriving DecidableEq, Repr

/-- A node of the section lookup tree (`LookupTreeNode` in `config.rs`);
the `NonTerminal` map is an association list. -/
inductive LookupTreeNode where
  | terminal (ids : List Nat)
  | nonTerminal (sub : List (Bytes × List Nat))
deriving DecidableEq, Repr

/-- First value of an association list bound to key `k`
(models `HashMap::get`). -/
def assocFind {α β : Type} [DecidableEq α] : List (α × β) → α → Option β
  | [], _ => none
  | (a, b) :: t, k => if a = k then some b else assocFind t k

/-- Models `map.entry(k).or_insert(d)` followed by an in-place update `f`:
the first entry with key `k` is replaced by `(k, f v)`; if `k` is absent,
`(k, f d)` is appended. -/
def assocModify {α β : Type} [DecidableEq α] : List (α × β) → α → β → (β → β) → List (α × β)
  | [], k, d, f => [(k, f d)]
  | (a, b) :: t, k, d, f =>
    if a = k then (a, f b) :: t else (a, b) :: assocModify t k d f

/-- Replaces the value bound to key `k` (first occurrence) by `v`
(models writing through a `&mut` obtained from `HashMap::get_mut`). -/
def assocReplace {α β : Type} [DecidableEq α] : List (α × β) → α → β → List (α × β)
  | [], _, _ => []
  | (a, b) :: t, k, v =>
    if a = k then (a, v) :: t else (a, b) :: assocReplace t k v

/-- `GitConfig` from `config.rs`; the four maps are association lists and
`section_order` is a plain list (the `VecDeque` is only pushed at the back). -/
structure GitConfig where
  frontMatterEvents : List Event
  sectionLookupTree : List (Bytes × List LookupTreeNode)
  sections : List (Nat × List Event)
  sectionHeaders : List (Nat × ParsedSectionHeader)
  sectionIdCounter : Nat
  sectionOrder : List Nat
deriving DecidableEq, Repr

def emptyConfig : GitConfig :=
  { frontMatterEvents := []
    sectionLookupTree := []
    sections := []
    sectionHeaders := []
    sectionIdCounter := 0
    sectionOrder := [] }

/-- The subsection branch of `push_section`'s lookup-tree insertion: find
the first `NonTerminal` node and push the id into its entry for `s`
(creating the entry if absent); if there is no `NonTerminal` node, append
a fresh one at the end of the node list. -/
def nodesInsertSub : List LookupTreeNode → Bytes → Nat → List LookupTreeNode
  | [], s, id => [.nonTerminal [(s, [id])]]
  | .nonTerminal m :: rest, s, id => .nonTerminal (assocModify m s [] (· ++ [id])) :: rest
  | n :: rest, s, id => n :: nodesInsertSub rest s id

/-- The no-subsection branch of `push_section`'s lookup-tree insertion:
push the id into the first `Terminal` node, or append a fresh one. -/
def nodesInsertTerm : List LookupTreeNode → Nat → List LookupTreeNode
  | [], id => [.terminal [id]]
  | .terminal v :: rest, id => .terminal (v ++ [id]) :: rest
  | n :: rest, id => n :: nodesInsertTerm rest id

/-- Lookup-tree insertion of `push_section`:
`self.section_lookup_tree.entry(name).or_default()` followed by the node
scan for the given optional subsection name. -/
def treeInsert (tree : List (Bytes × List LookupTreeNode)) (name : Bytes)
    (sub : Option Bytes) (id : Nat) : List (Bytes × List LookupTreeNode) :=
  assocModify tree name []
    (fun nodes =>
      match sub with
      | some s => nodesInsertSub nodes s id
      | none => nodesInsertTerm nodes id)

/-- `push_section` from `config.rs`.  The Rust code keeps the current
section name, subsection name and pending event buffer in three variables
that are always updated together; we bundle them (together with the parsed
header they came from) into one `Option`, so the `unwrap` of the section
name is not needed.  When no section is pending this is a no-op
(`maybe_section.take()` returns `None`). -/
def pushSectionTop (cfg : GitConfig)
    (cursor : Option (ParsedSectionHeader × List Event)) : GitConfig :=
  match cursor with
  | none => cfg
  | some (h, buf) =>
    { cfg with
      sections := cfg.sections ++ [(cfg.sectionIdCounter, buf)]
      sectionLookupTree :=
        treeInsert cfg.sectionLookupTree h.name h.subsectionName cfg.sectionIdCounter
      sectionOrder := cfg.sectionOrder ++ [cfg.sectionIdCounter]
      sectionIdCounter := cfg.sectionIdCounter + 1 }

/-- The event loop of `from_parser`.  A section-only event
(`Key`, `Value`, `ValueNotDone`, `ValueDone`, `KeyValueSeparator`) arriving
while no section is open hits
`.expect("Got a section-only event before a section")`; that panic is
modelled as `none`. -/
def buildGo (cfg : GitConfig) (cursor : Option (ParsedSectionHeader × List Event)) :
    List Event → Option GitConfig
  | [] => some (pushSectionTop cfg cursor)
  | .sectionHeader h :: rest =>
    let cfg1 := pushSectionTop cfg cursor
    let cfg2 := { cfg1 with
      sectionHeaders := cfg1.sectionHeaders ++ [(cfg1.sectionIdCounter, h)] }
    buildGo cfg2 (some (h, [])) rest
  | .key k :: rest =>
    match cursor with
    | none => none
    | some (h, buf) => buildGo cfg (some (h, buf ++ [.key k])) rest
  | .value v :: rest =>
    match cursor with
    | none => none
    | some (h, buf) => buildGo cfg (some (h, buf ++ [.value v])) rest
  | .valueNotDone v :: rest =>
    match cursor with
    | none => none
    | some (h, buf) => buildGo cfg (some (h, buf ++ [.valueNotDone v])) rest
  | .valueDone v :: rest =>
    match cursor with
    | none => none
    | some (h, buf) => buildGo cfg (some (h, buf ++ [.valueDone v])) rest
  | .keyValueSeparator :: rest =>
    match cursor with
    | none => none
    | some (h, buf) => buildGo cfg (some (h, buf ++ [.keyValueSeparator])) rest
  | .comment b :: rest =>
    match cursor with
    | none =>
      buildGo { cfg with frontMatterEvents := cfg.frontMatterEvents ++ [.comment b] } none rest
    | some (h, buf) => buildGo cfg (some (h, buf ++ [.comment b])) rest
  | .newline b :: rest =>
    match cursor with
    | none =>
      buildGo { cfg with frontMatterEvents := cfg.frontMatterEvents ++ [.newline b] } none rest
    | some (h, buf) => buildGo cfg (some (h, buf ++ [.newline b])) rest
  | .whitespace b :: rest =>
    match cursor with
    | none =>
      buildGo { cfg with frontMatterEvents := cfg.frontMatterEvents ++ [.whitespace b] } none rest
    | some (h, buf) => buildGo cfg (some (h, buf ++ [.whitespace b])) rest

/-- `GitConfig::from_parser`: build a document from an event stream. -/
def fromParser (evs : List Event) : Option GitConfig :=
  buildGo emptyConfig none evs

/-- The body events of section `sid` (`self.sections.get(&sid).unwrap()`;
the default is unreachable for ids produced by lookup resolution, see the
builder invariants below). -/
def sectionBody (cfg : GitConfig) (sid : Nat) : List Event :=
  (assocFind cfg.sections sid).getD []

/-- Scan of the node list when a subsection name was given: the loop
breaks at the *first* `NonTerminal` node and takes that node's map entry
for `s` (which may be absent). -/
def firstNonTerminalLookup : List LookupTreeNode → Bytes → Option (List Nat)
  | [], _ => none
  | .nonTerminal m :: _, s => assocFind m s
  | _ :: rest, s => firstNonTerminalLookup rest s

/-- Scan of the node list when no subsection name was given: the id list
of the first `Terminal` node. -/
def firstTerminal : List LookupTreeNode → Option (List Nat)
  | [] => none
  | .terminal v :: _ => some v
  | _ :: rest => firstTerminal rest

/-- `get_section_ids_by_name_and_subname` from `config.rs`. -/
def getSectionIds (cfg : GitConfig) (name : Bytes) (sub : Option Bytes) :
    CfgResult (List Nat) :=
  match assocFind cfg.sectionLookupTree name with
  | none => .err (.sectionDoesNotExist name)
  | some nodes =>
    match (match sub with
           | some s => firstNonTerminalLookup nodes s
           | none => firstTerminal nodes) with
    | some ids => .ok ids
    | none => .err (.subSectionDoesNotExist sub)

/-- The key-seen/value-capture loop shared by `get_raw_value` and
`get_raw_value_mut`, written as structural recursion over the events with
the `found_key` flag as state; the returned value is the `latest_value`
accumulator at the end of the loop. -/
def lastValueOf (key : Bytes) : List Event → Bool → Option Bytes
  | [], _ => none
  | .key k :: rest, found => lastValueOf key rest (if k = key then true else found)
  | .value v :: rest, found =>
    if found then some ((lastValueOf key rest false).getD v)
    else lastValueOf key rest found
  | _ :: rest, found => lastValueOf key rest found

/-- `get_raw_value` from `config.rs`: resolve the id list, take its maximum
id (`max().unwrap()`; the empty case is unreachable by the resolution
invariant and mapped to the same key error to keep the function total),
and scan that one section. -/
def getRawValue (cfg : GitConfig) (name : Bytes) (sub : Option Bytes) (key : Bytes) :
    CfgResult Bytes :=
  match getSectionIds cfg name sub with
  | .err e => .err e
  | .ok ids =>
    match ids.max? with
    | none => .err (.keyDoesNotExist key)
    | some sid =>
      match lastValueOf key (sectionBody cfg sid) false with
      | some v => .ok v
      | none => .err (.keyDoesNotExist key)

/-- The per-section capture loop of `get_raw_multi_value` /
`get_raw_multi_value_mut`: collects every value captured while the
`found_key` flag is set, and returns the final state of the flag. -/
def collectValues (key : Bytes) : List Event → Bool → List Bytes × Bool
  | [], found => ([], found)
  | .key k :: rest, found => collectValues key rest (if k = key then true else found)
  | .value v :: rest, found =>
    if found then
      let r := collectValues key rest false
      (v :: r.1, r.2)
    else collectValues key rest found
  | _ :: rest, found => collectValues key rest found

/-- `get_raw_multi_value` from `config.rs`: iterate the resolved ids in
list order, resetting `found_key` for each section (it is declared inside
the loop), and fail with a key error if nothing was collected. -/
def getRawMultiValue (cfg : GitConfig) (name : Bytes) (sub : Option Bytes) (key : Bytes) :
    CfgResult (List Bytes) :=
  match getSectionIds cfg name sub with
  | .err e => .err e
  | .ok ids =>
    let values := ids.foldl (fun acc sid => acc ++ (collectValues key (sectionBody cfg sid) false).1) []
    if values = [] then .err (.keyDoesNotExist key) else .ok values

/-- The cross-section capture loop of `get_raw_multi_value_mut`: the
`found_key` flag is declared *outside* the `iter_mut` closure in the Rust
code, so it is threaded from one visited section to the next. -/
def mutValuesGo (key : Bytes) : List (List Event) → Bool → List Bytes
  | [], _ => []
  | b :: rest, found =>
    let r := collectValues key b found
    r.1 ++ mutValuesGo key rest r.2

/-- The section bodies visited by `self.sections.iter_mut().filter_map(..)`
when the map's (unspecified) iteration order over the stored keys is
`order`: the keys contained in the resolved id list, in iteration order. -/
def iterBodies (cfg : GitConfig) (order : List Nat) (ids : List Nat) : List (List Event) :=
  (order.filter (fun sid => ids.contains sid)).map (sectionBody cfg)

/-- The values referenced by `get_raw_multi_value_mut` from `config.rs`,
in the order the returned `Vec` holds them; `order` is the `HashMap`
iteration order over the stored section ids. -/
def getRawMultiValueMutVals (order : List Nat) (cfg : GitConfig)
    (name : Bytes) (sub : Option Bytes) (key : Bytes) : CfgResult (List Bytes) :=
  match getSectionIds cfg name sub with
  | .err e => .err e
  | .ok ids =>
    let values := mutValuesGo key (iterBodies cfg order ids) false
    if values = [] then .err (.keyDoesNotExist key) else .ok values

/-- Rewrites one section body the way the zip in `set_raw_multi_value`
does: each value captured by the (threaded) `found_key` protocol is
overwritten by the next unused element of `supply`; once `supply` is
exhausted the remaining captured values are left unchanged. -/
def mutateBody (key : Bytes) : List Event → Bool → List Bytes → List Event × Bool × List Bytes
  | [], found, supply => ([], found, supply)
  | .key k :: rest, found, supply =>
    let r := mutateBody key rest (if k = key then true else found) supply
    (.key k :: r.1, r.2)
  | .value v :: rest, found, supply =>
    if found then
      match supply with
      | nv :: sup => let r := mutateBody key rest false sup; (.value nv :: r.1, r.2)
      | [] => let r := mutateBody key rest false []; (.value v :: r.1, r.2)
    else
      let r := mutateBody key rest found supply
      (.value v :: r.1, r.2)
  | e :: rest, found, supply =>
    let r := mutateBody key rest found supply
    (e :: r.1, r.2)

/-- Applies `mutateBody` to the sections named by `sids` (the map's
iteration order restricted to the resolved ids), threading the
`found_key` flag and the remaining new values across sections. -/
def applyMut (key : Bytes) : List (Nat × List Event) → List Nat → Bool → List Bytes →
    List (Nat × List Event)
  | secs, [], _, _ => secs
  | secs, sid :: rest, found, supply =>
    let b := (assocFind secs sid).getD []
    let r := mutateBody key b found supply
    applyMut key (assocReplace secs sid r.1) rest r.2.1 r.2.2

/-- `set_raw_multi_value` from `config.rs`: obtain the mutable references
via `get_raw_multi_value_mut` (failing, and mutating nothing, if no value
matched) and zip the new values onto them positionally; `order` is the
`HashMap` iteration order over the stored section ids. -/
def setRawMultiValueO (order : List Nat) (cfg : GitConfig) (name : Bytes)
    (sub : Option Bytes) (key : Bytes) (newValues : List Bytes) : CfgResult GitConfig :=
  match getSectionIds cfg name sub with
  | .err e => .err e
  | .ok ids =>
    let sids := order.filter (fun sid => ids.contains sid)
    let values := mutValuesGo key (sids.map (sectionBody cfg)) false
    if values = [] then .err (.keyDoesNotExist key)
    else .ok { cfg with sections := applyMut key cfg.sections sids false newValues }

/-- Position (index into the section body) of the value event that
`get_raw_value_mut` hands back a mutable reference to: the last value
captured by the key-seen protocol. -/
def lastValueIdx (key : Bytes) : List Event → Bool → Option Nat
  | [], _ => none
  | .key k :: rest, found => (lastValueIdx key rest (if k = key then true else found)).map (· + 1)
  | .value _ :: rest, found =>
    if found then
      match lastValueIdx key rest false with
      | some j => some (j + 1)
      | none => some 0
    else (lastValueIdx key rest found).map (· + 1)
  | _ :: rest, found => (lastValueIdx key rest found).map (· + 1)

/-- `set_raw_value` from `config.rs`: `get_raw_value_mut` (same resolution
and scan as `get_raw_value`) followed by overwriting the referenced value
event. -/
def setRawValue (cfg : GitConfig) (name : Bytes) (sub : Option Bytes) (key : Bytes)
    (newValue : Bytes) : CfgResult GitConfig :=
  match getSectionIds cfg name sub with
  | .err e => .err e
  | .ok ids =>
    match ids.max? with
    | none => .err (.keyDoesNotExist key)
    | some sid =>
      match lastValueIdx key (sectionBody cfg sid) false with
      | none => .err (.keyDoesNotExist key)
      | some i =>
        .ok { cfg with
          sections := assocReplace cfg.sections sid ((sectionBody cfg sid).set i (.value newValue)) }

/-- `impl Display for GitConfig`: front-matter events, then for each
section id in `section_order` the stored header followed by the stored
body events. -/
def renderDoc (cfg : GitConfig) : Bytes :=
  renderEvents cfg.frontMatterEvents ++
    (cfg.sectionOrder.map (fun sid =>
      (match assocFind cfg.sectionHeaders sid with
       | some h => h.raw
       | none => []) ++ renderEvents (sectionBody cfg sid))).flatten

/-! ## Concrete event streams used by witnesses and counterexamples -/
def hdr (n : String) (s : Option String) (raw : String) : Event :=
  .sectionHeader ⟨bs n, s.map bs, bs raw⟩

def nl : Event := .newline (bs "\n")

-- "[core]a=b\n[core]\na=c\na=d"
def evsA : List Event :=
  [hdr "core" none "[core]", .key (bs "a"), .keyValueSeparator, .value (bs "b"), nl,
   hdr "core" none "[core]", nl, .key (bs "a"), .keyValueSeparator, .value (bs "c"), nl,
   .key (bs "a"), .keyValueSeparator, .value (bs "d")]

-- "[core]a=b\n[core.a]a=c"
def evsB : List Event :=
  [hdr "core" none "[core]", .key (bs "a"), .keyValueSeparator, .value (bs "b"), nl,
   hdr "core" (some "a") "[core.a]", .key (bs "a"), .keyValueSeparator, .value (bs "c")]

-- set_raw_value on "[core]\n\ta=b" then render = "[core]\n\ta=hello"
def evsC : List Event :=
  [hdr "core" none "[core]", nl, .whitespace (bs "\t"), .key (bs "a"), .keyValueSeparator,
   .value (bs "b")]

-- set_raw_multi_value "[core]\na=b\na=c" with ["x"] → get_raw_multi_value ["x","c"]
def evsD : List Event :=
  [hdr "core" none "[core]", nl, .key (bs "a"), .keyValueSeparator, .value (bs "b"), nl,
   .key (bs "a"), .keyValueSeparator, .value (bs "c")]

-- C4 counterexample sanity: "[core]a=b\n[core]\nc=d"
def evsE : List Event :=
  [hdr "core" none "[core]", .key (bs "a"), .keyValueSeparator, .value (bs "b"), nl,
   hdr "core" none "[core]", nl, .key (bs "c"), .keyValueSeparator, .value (bs "d")]

-- C10 counterexample sanity: two sections with a=b / a=c, iteration order [1,0]
def evsF : List Event :=
  [hdr "core" none "[core]", .key (bs "a"), .keyValueSeparator, .value (bs "b"), nl,
   hdr "core" none "[core]", .key (bs "a"), .keyValueSeparator, .value (bs "c")]

-- C2 counterexample sanity: "[core]\na=x\\\ny\nb=c" — query a returns c (key b's value)
def evsG : List Event :=
  [hdr "core" none "[core]", nl, .key (bs "a"), .keyValueSeparator,
   .valueNotDone (bs "x\\"), .valueDone (bs "y"), nl,
   .key (bs "b"), .keyValueSeparator, .value (bs "c")]

/-- Resolution through the raw lookup tree, without the error wrapping. -/
def treeResolveOpt (tree : List (Bytes × List LookupTreeNode)) (n : Bytes)
    (s : Option Bytes) : Option (List Nat) :=
  match assocFind tree n with
  | none => none
  | some nodes =>
    match s with
    | some t => firstNonTerminalLookup nodes t
    | none => firstTerminal nodes

/-! ## Builder invariants -/

/-- Ids (in storage order) of the stored headers matching a
(section name, optional subsection name) query. -/
def matchingIdsH (hs : List (Nat × ParsedSectionHeader)) (n : Bytes) (s : Option Bytes) :
    List Nat :=
  (hs.filter (fun p => decide (p.2.name = n ∧ p.2.subsectionName = s))).map Prod.fst

/-- Invariants of a fully flushed document (no pending section):
ids are `0, 1, …, counter-1` in storage and presentation order, and the
lookup tree resolves a query exactly to the (insertion-ordered, non-empty)
list of ids of the headers matching it. -/
structure DocInv (cfg : GitConfig) : Prop where
  order_eq : cfg.sectionOrder = List.range cfg.sectionIdCounter
  sections_keys : cfg.sections.map Prod.fst = List.range cfg.sectionIdCounter
  headers_keys : cfg.sectionHeaders.map Prod.fst = List.range cfg.sectionIdCounter
  tree_resolve : ∀ n s, treeResolveOpt cfg.sectionLookupTree n s =
    (if matchingIdsH cfg.sectionHeaders n s = [] then none
     else some (matchingIdsH cfg.sectionHeaders n s))
  tree_keys : ∀ n, (assocFind cfg.sectionLookupTree n).isSome ↔
    ∃ p ∈ cfg.sectionHeaders, p.2.name = n

/-- Invariants of the builder state while a section (whose header is `h`,
already stored under the current counter value but not yet flushed) is
open. -/
structure PendInv (cfg : GitConfig) (h : ParsedSectionHeader) : Prop where
  order_eq : cfg.sectionOrder = List.range cfg.sectionIdCounter
  sections_keys : cfg.sections.map Prod.fst = List.range cfg.sectionIdCounter
  headers_split : ∃ H0, cfg.sectionHeaders = H0 ++ [(cfg.sectionIdCounter, h)] ∧
    H0.map Prod.fst = List.range cfg.sectionIdCounter
  tree_resolve : ∀ n s, treeResolveOpt cfg.sectionLookupTree n s =
    (if matchingIdsH cfg.sectionHeaders.dropLast n s = [] then none
     else some (matchingIdsH cfg.sectionHeaders.dropLast n s))
  tree_keys : ∀ n, (assocFind cfg.sectionLookupTree n).isSome ↔
    ∃ p ∈ cfg.sectionHeaders.dropLast, p.2.name = n

/-- Invariants of the builder state before the first section header:
everything except the front matter is still empty. -/
structure FrontInv (cfg : GitConfig) : Prop where
  tree_empty : cfg.sectionLookupTree = []
  sections_empty : cfg.sections = []
  headers_empty : cfg.sectionHeaders = []
  counter_zero : cfg.sectionIdCounter = 0
  order_empty : cfg.sectionOrder = []

/-- Rendering of one section: stored header bytes, then the body events. -/
def renderSec (cfg : GitConfig) (sid : Nat) : Bytes :=
  (match assocFind cfg.sectionHeaders sid with
   | some h => h.raw
   | none => []) ++ renderEvents (sectionBody cfg sid)

/-- Bytes contributed by the pending cursor (its header and buffered body). -/
def renderCursor : Option (ParsedSectionHeader × List Event) → Bytes
  | none => []
  | some (h, buf) => h.raw ++ renderEvents buf

/-- Invariant of the builder state, by cursor shape. -/
def BuildOk (cfg : GitConfig) : Option (ParsedSectionHeader × List Event) → Prop
  | none => FrontInv cfg
  | some (h, _) => PendInv cfg h

/-! ## Key/value alternation and ownership of value events -/

/-- Ownership scan.  Modelled from the spec (§3): "a value event belongs
to the most recently seen key event that has not yet been matched"; a
`Value` matches (closes) the pending key, `ValueNotDone` fragments keep it
pending, and the terminating `ValueDone` closes it.  `ownedScan key evs p`
collects the payloads of the value events owned by `key` when `p` is the
key pending at the start. -/
def ownedScan (key : Bytes) : List Event → Option Bytes → List Bytes
  | [], _ => []
  | .key k :: rest, _ => ownedScan key rest (some k)
  | .value v :: rest, p =>
    (if p = some key then [v] else []) ++ ownedScan key rest none
  | .valueNotDone v :: rest, p =>
    (if p = some key then [v] else []) ++ ownedScan key rest p
  | .valueDone v :: rest, p =>
    (if p = some key then [v] else []) ++ ownedScan key rest none
  | _ :: rest, p => ownedScan key rest p

/-- The value-event payloads owned by `key` in a section body. -/
def ownedValues (key : Bytes) (evs : List Event) : List Bytes := ownedScan key evs none

/-- The key pending after scanning `evs`, starting from `p`. -/
def pendAfter : List Event → Option Bytes → Option Bytes
  | [], p => p
  | .key k :: rest, _ => pendAfter rest (some k)
  | .value _ :: rest, _ => pendAfter rest none
  | .valueDone _ :: rest, _ => pendAfter rest none
  | .valueNotDone _ :: rest, p => pendAfter rest p
  | _ :: rest, p => pendAfter rest p

/-- Well-formedness of a section body from the given pending state: a
`Key` appears only when no key is pending, and continuation fragments
(`ValueNotDone` / `ValueDone`) never appear while a key is pending —
every key is completed by a plain `Value` event.  This is the §3 document
invariant "key events and their associated value events alternate",
restricted to plain values as the queries require. -/
def wfFrom : List Event → Bool → Bool
  | [], _ => true
  | .key _ :: rest, pending => !pending && wfFrom rest true
  | .value _ :: rest, _ => wfFrom rest false
  | .valueNotDone _ :: rest, pending => !pending && wfFrom rest pending
  | .valueDone _ :: rest, pending => !pending && wfFrom rest pending
  | _ :: rest, pending => wfFrom rest pending

/-- Well-formedness of a whole section body. -/
def wfBody (evs : List Event) : Bool := wfFrom evs false

/-! ## Concrete documents for witnesses and counterexamples -/
def cfgA : GitConfig := (fromParser evsA).getD emptyConfig

def cfgE : GitConfig := (fromParser evsE).getD emptyConfig

def cfgF : GitConfig := (fromParser evsF).getD emptyConfig

def cfgG : GitConfig := (fromParser evsG).getD emptyConfig

/-! ## Multi-value query lemmas (C4) -/

/-- The values collected by `get_raw_multi_value` over a given id list:
each section contributes its captures (flag reset per section), in id-list
order. -/
def multiVals (cfg : GitConfig) (key : Bytes) (ids : List Nat) : List Bytes :=
  ids.flatMap (fun sid => (collectValues key (sectionBody cfg sid) false).1)

def cfgC : GitConfig := (fromParser evsC).getD emptyConfig

def cfgC2 : GitConfig :=
  match setRawValue cfgC (bs "core") none (bs "a") (bs "hello") with
  | .ok c => c
  | .err _ => emptyConfig

/-! ## Positional zip of new values onto existing captures (C3, C10) -/

/-- Result of zipping `new` onto the captured values `old` positionally:
the i-th capture becomes `new[i]`; captures beyond `new.length` are
unchanged; extra new values are dropped. -/
def zipApply (old new : List Bytes) : List Bytes :=
  new.take old.length ++ old.drop new.length

/-- The bodies produced by threading `mutateBody` over a list of bodies. -/
def mutBodies (key : Bytes) : List (List Event) → Bool → List Bytes → List (List Event)
  | [], _, _ => []
  | b :: rest, found, supply =>
    let r := mutateBody key b found supply
    r.1 :: mutBodies key rest r.2.1 r.2.2

def cfgD : GitConfig := (fromParser evsD).getD emptyConfig

def cfgD2 : GitConfig :=
  match setRawMultiValueO [0] cfgD (bs "core") none (bs "a") [bs "x"] with
  | .ok c => c
  | .err _ => emptyConfig

def cfgF2 : GitConfig :=
  match setRawMultiValueO [1, 0] cfgF (bs "core") none (bs "a") [bs "x"] with
  | .ok c => c
  | .err _ => emptyConfig

/-! ## C7: section-only events before any section header -/

/-- The events `from_parser` only accepts inside a section
(`Key`, `Value`, `ValueNotDone`, `ValueDone`, `KeyValueSeparator`). -/
def Event.isSectionOnly : Event → Bool
  | .key _ => true
  | .value _ => true
  | .valueNotDone _ => true
  | .valueDone _ => true
  | .keyValueSeparator => true
  | _ => false

def Event.isHeader : Event → Bool
  | .sectionHeader _ => true
  | _ => false

/-! ## The clean classifier (`src/gitoxide-core/src/repository/clean.rs`) -/
inductive FindRepository where
  | nonBare
  | all
deriving DecidableEq, Repr

/-- The recognised toggles of `clean` (the `Options` struct; the output
format is omitted — only the implemented `Human` format is modelled, and
`debug` only changes logging). -/
structure CleanOptions where
  debug : Bool
  execute : Bool
  ignored : Bool
  precious : Bool
  directories : Bool
  repositories : Bool
  skipHiddenRepositories : Option FindRepository
  findUntrackedRepositories : FindRepository
deriving DecidableEq, Repr

inductive IgnoreKind where
  | expendable
  | precious
deriving DecidableEq, Repr

inductive EntryStatus where
  | dotGit
  | pruned
  | trackedExcluded
  | tracked
  | ignored (kind : IgnoreKind)
  | untracked
deriving DecidableEq, Repr

inductive EntryKind where
  | file
  | symlink
  | emptyDirectory
  | directory
  | repository
deriving DecidableEq, Repr

/-- One entry of the walk result, with the walk-level observations the
loop branches on: `collapsedChild` models `dir_status.is_some()`,
`pathspecIncluded` models `pathspec_match ≠ None/Excluded`, and
`isRepoOnDisk` models `is_git(workdir.join(path)).is_ok()`.
`diskKind` models `entry.disk_kind.expect("present if not pruned")`,
which the loop only reads for entries that passed the pruning checks. -/
structure CleanEntry where
  relaPath : Bytes
  status : EntryStatus
  diskKind : EntryKind
  collapsedChild : Bool
  pathspecIncluded : Bool
  isRepoOnDisk : Bool
deriving DecidableEq, Repr

/-- Modelled from the spec: `Status::is_pruned()` comes from the external
`gix` walker; per §4.7 step 3 it holds for `Pruned`, `DotGit` and
`TrackedExcluded`. -/
def isPrunedStatus : EntryStatus → Bool
  | .dotGit => true
  | .pruned => true
  | .trackedExcluded => true
  | _ => false

/-- The loop state of the clean pass: the `execute` flag (downgradable to
dry-run), the counters, the warning flags, and the indices of emitted
(printed) and actually deleted entries. -/
structure CleanState where
  execute : Bool
  entriesToClean : Nat
  skippedDirectories : Nat
  skippedIgnored : Nat
  skippedPrecious : Nat
  skippedRepositories : Nat
  prunedEntries : Nat
  sawIgnoredDirectory : Bool
  sawUntrackedDirectory : Bool
  emitted : List Nat
  deleted : List Nat
deriving DecidableEq, Repr

/-- The status keep-filter (step 5): keep decision plus increments of the
skipped-ignored and skipped-precious counters; `none` for the
`unreachable!` arms (pruned statuses are filtered before the match, and
tracked entries are never emitted by the walk). -/
def statusKeep (opts : CleanOptions) : EntryStatus → Option (Bool × Nat × Nat)
  | .untracked => some (true, 0, 0)
  | .ignored .expendable => some (opts.ignored, if opts.ignored then 0 else 1, 0)
  | .ignored .precious => some (opts.precious, 0, if opts.precious then 0 else 1)
  | _ => none

/-- Step 4: a `Directory` that is a git repository on disk is upgraded to
`Repository`. -/
def effectiveKind (k : EntryKind) (isRepo : Bool) : EntryKind :=
  if k = .directory && isRepo then .repository else k

/-- The kind keep-filter (step 6): keep decision plus increments of the
skipped-directories and skipped-repositories counters. -/
def kindKeep (opts : CleanOptions) : EntryKind → Bool × Nat × Nat
  | .file => (true, 0, 0)
  | .symlink => (true, 0, 0)
  | .emptyDirectory => if opts.directories then (true, 0, 0) else (false, 1, 0)
  | .directory => if opts.directories then (true, 0, 0) else (false, 1, 0)
  | .repository => if opts.repositories then (true, 0, 0) else (false, 0, 1)

/-- One iteration of the entry loop of `clean` (lines 95–233), for the
entry at index `i`; `trig` is the value `gix::interrupt::is_triggered()`
returns when this iteration reaches the post-print check.  Deleting
(`remove_dir_all` / `remove_file`) is modelled by recording the entry's
index in `deleted`.  The `unreachable!` arms are `none`. -/
def cleanStep (opts : CleanOptions) (trig : Bool) (i : Nat) (st : CleanState)
    (e : CleanEntry) : Option CleanState :=
  if e.collapsedChild then some st
  else
    let st1 := { st with
      prunedEntries := st.prunedEntries + (if e.pathspecIncluded then 0 else 1) }
    if isPrunedStatus e.status || !e.pathspecIncluded then some st1
    else
      match statusKeep opts e.status with
      | none => none
      | some (keep, dIgn, dPrec) =>
        let st2 := { st1 with
          skippedIgnored := st1.skippedIgnored + dIgn
          skippedPrecious := st1.skippedPrecious + dPrec }
        if !keep then some st2
        else
          let k := effectiveKind e.diskKind e.isRepoOnDisk
          let kk := kindKeep opts k
          let st3 := { st2 with
            skippedDirectories := st2.skippedDirectories + kk.2.1
            skippedRepositories := st2.skippedRepositories + kk.2.2 }
          if !kk.1 then some st3
          else
            let isIgn := match e.status with
              | .ignored _ => true
              | _ => false
            let st4 := if k = .directory then
                { st3 with
                  sawIgnoredDirectory := st3.sawIgnoredDirectory || isIgn
                  sawUntrackedDirectory :=
                    st3.sawUntrackedDirectory || decide (e.status = .untracked) }
              else st3
            let st5 := { st4 with emitted := st4.emitted ++ [i] }
            let execute2 := if trig then false else st5.execute
            if execute2 then
              some { st5 with
                execute := execute2
                deleted := st5.deleted ++ [i] }
            else
              some { st5 with
                execute := execute2
                entriesToClean := st5.entriesToClean + 1 }

/-- The entry loop, indexing entries from `i0`. -/
def cleanRunGo (opts : CleanOptions) (interrupt : Nat → Bool) :
    List CleanEntry → Nat → CleanState → Option CleanState
  | [], _, st => some st
  | e :: rest, i, st =>
    match cleanStep opts (interrupt i) i st e with
    | none => none
    | some st2 => cleanRunGo opts interrupt rest (i + 1) st2

def initCleanState (opts : CleanOptions) : CleanState :=
  { execute := opts.execute
    entriesToClean := 0
    skippedDirectories := 0
    skippedIgnored := 0
    skippedPrecious := 0
    skippedRepositories := 0
    prunedEntries := 0
    sawIgnoredDirectory := false
    sawUntrackedDirectory := false
    emitted := []
    deleted := [] }

/-- The whole entry loop of `clean`, with `interrupt i` the flag value
observed at the check following entry `i`'s emission (the process-wide
flag is a latch, so `interrupt` is taken monotone in the theorems). -/
def cleanRun (opts : CleanOptions) (interrupt : Nat → Bool)
    (entries : List CleanEntry) : Option CleanState :=
  cleanRunGo opts interrupt entries 0 (initCleanState opts)

/-- Whether the final summary prints "Result may be incomplete as it was
interrupted" (lines 234/294): only the non-executing summary branch
checks the flag. -/
def reportsIncomplete (st : CleanState) (trigAtEnd : Bool) : Bool :=
  !st.execute && trigAtEnd

inductive WalkAction where
  | cont
  | cancel
deriving DecidableEq, Repr

/-- `InterruptableCollect::emit`: delegate to the inner collector, but
return `Cancel` whenever the interrupt flag is observed. -/
def interruptableEmit (innerRes : WalkAction) (trig : Bool) : WalkAction :=
  if trig then .cancel else innerRes

def optsW : CleanOptions :=
  { debug := false, execute := false, ignored := true, precious := true,
    directories := true, repositories := true,
    skipHiddenRepositories := none, findUntrackedRepositories := .nonBare }

def entryW : CleanEntry :=
  { relaPath := bs "a.txt", status := .untracked, diskKind := .file,
    collapsedChild := false, pathspecIncluded := true, isRepoOnDisk := false }

def stW : CleanState :=
  (cleanStep optsW false 0 (initCleanState optsW) entryW).getD (initCleanState optsW)

def optsX : CleanOptions :=
  { debug := false, execute := true, ignored := true, precious := true,
    directories := true, repositories := true,
    skipHiddenRepositories := none, findUntrackedRepositories := .nonBare }

def entryX : CleanEntry :=
  { relaPath := bs "b.txt", status := .untracked, diskKind := .file,
    collapsedChild := false, pathspecIncluded := true, isRepoOnDisk := false }

def interruptX : Nat → Bool := fun n => decide (1 ≤ n)

def stX : CleanState :=
  (cleanRun optsX interruptX [entryX, entryX]).getD (initCleanState optsX)

/-! ## Theorems -/

/-! ## Basic lemmas about the association-list operations -/
theorem assocFind_append {α β : Type} [DecidableEq α] (l1 l2 : List (α × β)) (k : α) :
    assocFind (l1 ++ l2) k =
      (match assocFind l1 k with
       | some b => some b
       | none => assocFind l2 k) := by
  induction l1 with
  | nil => simp [assocFind]
  | cons p t ih =>
    obtain ⟨a, b⟩ := p
    by_cases h : a = k <;> simp [assocFind, h, ih]

theorem assocFind_modify_self {α β : Type} [DecidableEq α]
    (l : List (α × β)) (k : α) (d : β) (f : β → β) :
    assocFind (assocModify l k d f) k = some (f ((assocFind l k).getD d)) := by
  induction l with
  | nil => simp [assocFind, assocModify]
  | cons p t ih =>
    obtain ⟨a, b⟩ := p
    by_cases h : a = k <;> simp [assocFind, assocModify, h, ih]

theorem assocFind_modify_other {α β : Type} [DecidableEq α]
    (l : List (α × β)) (k k' : α) (d : β) (f : β → β) (hne : k' ≠ k) :
    assocFind (assocModify l k d f) k' = assocFind l k' := by
  induction l with
  | nil => simp [assocFind, assocModify, Ne.symm hne]
  | cons p t ih =>
    obtain ⟨a, b⟩ := p
    by_cases h : a = k
    · subst h
      simp [assocFind, assocModify, Ne.symm hne]
    · by_cases h2 : a = k' <;> simp [assocFind, assocModify, h, h2, hne, ih]

theorem assocFind_replace_self {α β : Type} [DecidableEq α]
    (l : List (α × β)) (k : α) (v : β) :
    assocFind (assocReplace l k v) k = (assocFind l k).map (fun _ => v) := by
  induction l with
  | nil => simp [assocFind, assocReplace]
  | cons p t ih =>
    obtain ⟨a, b⟩ := p
    by_cases h : a = k <;> simp [assocFind, assocReplace, h, ih]

theorem assocFind_replace_other {α β : Type} [DecidableEq α]
    (l : List (α × β)) (k k' : α) (v : β) (hne : k' ≠ k) :
    assocFind (assocReplace l k v) k' = assocFind l k' := by
  induction l with
  | nil => simp [assocFind, assocReplace]
  | cons p t ih =>
    obtain ⟨a, b⟩ := p
    by_cases h : a = k
    · subst h
      simp [assocFind, assocReplace, Ne.symm hne]
    · by_cases h2 : a = k' <;> simp [assocFind, assocReplace, h, h2, hne, ih]

theorem assocFind_eq_none_of_not_mem {α β : Type} [DecidableEq α]
    (l : List (α × β)) (k : α) (h : k ∉ l.map Prod.fst) :
    assocFind l k = none := by
  induction l with
  | nil => simp [assocFind]
  | cons p t ih =>
    obtain ⟨a, b⟩ := p
    simp only [List.map_cons, List.mem_cons] at h
    push_neg at h
    simp [assocFind, Ne.symm h.1, ih h.2]

theorem assocFind_isSome_of_mem {α β : Type} [DecidableEq α]
    (l : List (α × β)) (k : α) (h : k ∈ l.map Prod.fst) :
    (assocFind l k).isSome = true := by
  induction l with
  | nil => simp at h
  | cons p t ih =>
    obtain ⟨a, b⟩ := p
    by_cases h2 : a = k
    · simp [assocFind, h2]
    · simp only [List.map_cons, List.mem_cons] at h
      rcases h with h | h
      · exact absurd h.symm h2
      · simp [assocFind, h2, ih h]

/-! ## Lemmas about the lookup-tree insertion of `push_section` -/
theorem firstNonTerminalLookup_insertSub_self (nodes : List LookupTreeNode) (s : Bytes) (id : Nat) :
    firstNonTerminalLookup (nodesInsertSub nodes s id) s =
      some (((firstNonTerminalLookup nodes s).getD []) ++ [id]) := by
  induction nodes with
  | nil => simp [nodesInsertSub, firstNonTerminalLookup, assocFind]
  | cons n rest ih =>
    cases n with
    | terminal v => simpa [nodesInsertSub, firstNonTerminalLookup] using ih
    | nonTerminal m =>
      simp [nodesInsertSub, firstNonTerminalLookup, assocFind_modify_self]

theorem firstNonTerminalLookup_insertSub_other (nodes : List LookupTreeNode) (s t : Bytes)
    (id : Nat) (hne : t ≠ s) :
    firstNonTerminalLookup (nodesInsertSub nodes s id) t = firstNonTerminalLookup nodes t := by
  induction nodes with
  | nil => simp [nodesInsertSub, firstNonTerminalLookup, assocFind, Ne.symm hne]
  | cons n rest ih =>
    cases n with
    | terminal v => simpa [nodesInsertSub, firstNonTerminalLookup] using ih
    | nonTerminal m =>
      simp [nodesInsertSub, firstNonTerminalLookup, assocFind_modify_other _ _ _ _ _ hne]

theorem firstTerminal_insertSub (nodes : List LookupTreeNode) (s : Bytes) (id : Nat) :
    firstTerminal (nodesInsertSub nodes s id) = firstTerminal nodes := by
  induction nodes with
  | nil => simp [nodesInsertSub, firstTerminal]
  | cons n rest ih =>
    cases n with
    | terminal v => simp [nodesInsertSub, firstTerminal]
    | nonTerminal m => simp [nodesInsertSub, firstTerminal]

theorem firstNonTerminalLookup_insertTerm (nodes : List LookupTreeNode) (t : Bytes) (id : Nat) :
    firstNonTerminalLookup (nodesInsertTerm nodes id) t = firstNonTerminalLookup nodes t := by
  induction nodes with
  | nil => simp [nodesInsertTerm, firstNonTerminalLookup]
  | cons n rest ih =>
    cases n with
    | terminal v => simp [nodesInsertTerm, firstNonTerminalLookup]
    | nonTerminal m => simp [nodesInsertTerm, firstNonTerminalLookup]

theorem firstTerminal_insertTerm (nodes : List LookupTreeNode) (id : Nat) :
    firstTerminal (nodesInsertTerm nodes id) =
      some (((firstTerminal nodes).getD []) ++ [id]) := by
  induction nodes with
  | nil => simp [nodesInsertTerm, firstTerminal]
  | cons n rest ih =>
    cases n with
    | terminal v => simp [nodesInsertTerm, firstTerminal]
    | nonTerminal m => simpa [nodesInsertTerm, firstTerminal] using ih

/-- Effect of one `push_section` lookup-tree insertion on resolution: the
inserted id is appended to the id list of exactly the inserted
(name, subsection) slot, and every other slot is untouched. -/
theorem treeResolveOpt_insert (tree : List (Bytes × List LookupTreeNode)) (name : Bytes)
    (sub : Option Bytes) (id : Nat) (n : Bytes) (s : Option Bytes) :
    treeResolveOpt (treeInsert tree name sub id) n s =
      if n = name ∧ s = sub then some (((treeResolveOpt tree n s).getD []) ++ [id])
      else treeResolveOpt tree n s := by
  by_cases hn : n = name
  · subst hn
    unfold treeResolveOpt treeInsert
    rw [assocFind_modify_self]
    cases sub with
    | none =>
      cases s with
      | none =>
        cases h : assocFind tree n <;>
          simp [h, firstTerminal_insertTerm, firstTerminal]
      | some t =>
        cases h : assocFind tree n <;>
          simp [h, firstNonTerminalLookup_insertTerm, firstNonTerminalLookup]
    | some u =>
      cases s with
      | none =>
        cases h : assocFind tree n <;>
          simp [h, firstTerminal_insertSub, firstTerminal]
      | some t =>
        by_cases ht : t = u
        · subst ht
          cases h : assocFind tree n <;>
            simp [h, firstNonTerminalLookup_insertSub_self, firstNonTerminalLookup, assocFind]
        · cases h : assocFind tree n <;>
            simp [h, ht, firstNonTerminalLookup_insertSub_other _ _ _ _ ht,
              firstNonTerminalLookup, assocFind, Ne.symm ht]
  · unfold treeResolveOpt treeInsert
    rw [assocFind_modify_other _ _ _ _ _ hn]
    simp [hn]

/-- A lookup-tree insertion makes the inserted name present and leaves
presence of every other name unchanged. -/
theorem treeInsert_isSome (tree : List (Bytes × List LookupTreeNode)) (name : Bytes)
    (sub : Option Bytes) (id : Nat) (n : Bytes) :
    (assocFind (treeInsert tree name sub id) n).isSome ↔
      (assocFind tree n).isSome ∨ n = name := by
  by_cases hn : n = name
  · subst hn
    unfold treeInsert
    rw [assocFind_modify_self]
    simp
  · unfold treeInsert
    rw [assocFind_modify_other _ _ _ _ _ hn]
    simp [hn]

theorem matchingIdsH_append (hs1 hs2 : List (Nat × ParsedSectionHeader)) (n : Bytes)
    (s : Option Bytes) :
    matchingIdsH (hs1 ++ hs2) n s = matchingIdsH hs1 n s ++ matchingIdsH hs2 n s := by
  simp [matchingIdsH]

theorem matchingIdsH_single (id : Nat) (h : ParsedSectionHeader) (n : Bytes) (s : Option Bytes) :
    matchingIdsH [(id, h)] n s =
      if h.name = n ∧ h.subsectionName = s then [id] else [] := by
  by_cases hc : h.name = n ∧ h.subsectionName = s <;> simp [matchingIdsH, hc]

theorem frontInv_docInv {cfg : GitConfig} (h : FrontInv cfg) : DocInv cfg := by
  refine ⟨?_, ?_, ?_, ?_, ?_⟩ <;>
    simp [h.order_empty, h.sections_empty, h.headers_empty, h.counter_zero, h.tree_empty,
      treeResolveOpt, assocFind, matchingIdsH]

/-- Flushing a pending section preserves the invariants: the flushed
document is fully consistent again. -/
theorem pendInv_flush {cfg : GitConfig} {h : ParsedSectionHeader} (inv : PendInv cfg h)
    (buf : List Event) : DocInv (pushSectionTop cfg (some (h, buf))) := by
  obtain ⟨H0, hsplit, hkeys0⟩ := inv.headers_split
  have hdrop : cfg.sectionHeaders.dropLast = H0 := by
    rw [hsplit]; simp
  constructor
  · simp [pushSectionTop, inv.order_eq, List.range_succ]
  · simp [pushSectionTop, inv.sections_keys, List.range_succ]
  · simp only [pushSectionTop]
    rw [hsplit]
    simp [hkeys0, List.range_succ]
  · intro n s
    simp only [pushSectionTop]
    rw [treeResolveOpt_insert]
    rw [hsplit, matchingIdsH_append, matchingIdsH_single]
    have hres := inv.tree_resolve n s
    rw [hdrop] at hres
    by_cases hc : n = h.name ∧ s = h.subsectionName
    · obtain ⟨hc1, hc2⟩ := hc
      subst hc1; subst hc2
      simp only [and_self, if_true, hres]
      by_cases hm : matchingIdsH H0 h.name h.subsectionName = [] <;> simp [hm]
    · have hc' : ¬(h.name = n ∧ h.subsectionName = s) := by
        intro ⟨a, b⟩; exact hc ⟨a.symm, b.symm⟩
      simp only [hc, if_false, hc', hres]
      simp
  · intro n
    simp only [pushSectionTop]
    rw [treeInsert_isSome]
    have hk := inv.tree_keys n
    rw [hdrop] at hk
    rw [hsplit]
    constructor
    · rintro (hs | hs)
      · obtain ⟨p, hp, hpn⟩ := hk.mp hs
        exact ⟨p, by simp [hp], hpn⟩
      · exact ⟨(cfg.sectionIdCounter, h), by simp, hs.symm⟩
    · rintro ⟨p, hp, hpn⟩
      simp only [List.mem_append, List.mem_singleton] at hp
      rcases hp with hp | hp
      · exact Or.inl (hk.mpr ⟨p, hp, hpn⟩)
      · right; rw [hp] at hpn; exact hpn.symm

/-- Opening a new section (storing its header under the fresh counter
value) turns a flushed document into a consistent pending state. -/
theorem docInv_open {cfg : GitConfig} (inv : DocInv cfg) (h : ParsedSectionHeader) :
    PendInv { cfg with
      sectionHeaders := cfg.sectionHeaders ++ [(cfg.sectionIdCounter, h)] } h := by
  constructor
  · exact inv.order_eq
  · exact inv.sections_keys
  · exact ⟨cfg.sectionHeaders, by simp, inv.headers_keys⟩
  · intro n s
    have : (cfg.sectionHeaders ++ [(cfg.sectionIdCounter, h)]).dropLast = cfg.sectionHeaders := by
      simp
    simp only [this]
    exact inv.tree_resolve n s
  · intro n
    have : (cfg.sectionHeaders ++ [(cfg.sectionIdCounter, h)]).dropLast = cfg.sectionHeaders := by
      simp
    simp only [this]
    exact inv.tree_keys n

/-! ## Rendering lemmas and the builder correctness theorem -/
theorem renderEvents_append (l1 l2 : List Event) :
    renderEvents (l1 ++ l2) = renderEvents l1 ++ renderEvents l2 := by
  simp [renderEvents]

theorem renderEvents_nil : renderEvents [] = [] := rfl

theorem renderDoc_eq (cfg : GitConfig) :
    renderDoc cfg =
      renderEvents cfg.frontMatterEvents ++ (cfg.sectionOrder.map (renderSec cfg)).flatten := rfl

theorem assocFind_append_single_ne {β : Type} (l : List (Nat × β)) (k c : Nat) (x : β)
    (h : k ≠ c) : assocFind (l ++ [(c, x)]) k = assocFind l k := by
  rw [assocFind_append]
  cases hf : assocFind l k with
  | some b => rfl
  | none => simp [assocFind, Ne.symm h]

theorem assocFind_append_single_self {β : Type} (l : List (Nat × β)) (c : Nat) (x : β)
    (h : assocFind l c = none) : assocFind (l ++ [(c, x)]) c = some x := by
  rw [assocFind_append, h]
  simp [assocFind]

/-- Flushing a pending section appends that section's header bytes and
body to the rendering and changes nothing else. -/
theorem renderDoc_flush {cfg : GitConfig} {h : ParsedSectionHeader} (inv : PendInv cfg h)
    (buf : List Event) :
    renderDoc (pushSectionTop cfg (some (h, buf))) =
      renderDoc cfg ++ h.raw ++ renderEvents buf := by
  obtain ⟨H0, hsplit, hkeys0⟩ := inv.headers_split
  have hsecnone : assocFind cfg.sections cfg.sectionIdCounter = none := by
    apply assocFind_eq_none_of_not_mem
    rw [inv.sections_keys]
    simp
  have hhdrnone : assocFind H0 cfg.sectionIdCounter = none := by
    apply assocFind_eq_none_of_not_mem
    rw [hkeys0]
    simp
  have hmain : ∀ sid ∈ cfg.sectionOrder,
      renderSec (pushSectionTop cfg (some (h, buf))) sid = renderSec cfg sid := by
    intro sid hmem
    have hlt : sid < cfg.sectionIdCounter := by
      rw [inv.order_eq] at hmem
      exact List.mem_range.mp hmem
    have hne : sid ≠ cfg.sectionIdCounter := Nat.ne_of_lt hlt
    simp only [renderSec, pushSectionTop, sectionBody]
    rw [assocFind_append_single_ne _ _ _ _ hne]
  have hnew : renderSec (pushSectionTop cfg (some (h, buf))) cfg.sectionIdCounter =
      h.raw ++ renderEvents buf := by
    simp only [renderSec, pushSectionTop, sectionBody]
    rw [hsplit, assocFind_append_single_self _ _ _ hhdrnone,
      assocFind_append_single_self _ _ _ hsecnone]
    simp
  have horder : (pushSectionTop cfg (some (h, buf))).sectionOrder =
      cfg.sectionOrder ++ [cfg.sectionIdCounter] := rfl
  have hfm : (pushSectionTop cfg (some (h, buf))).frontMatterEvents =
      cfg.frontMatterEvents := rfl
  rw [renderDoc_eq, renderDoc_eq, horder, hfm, List.map_append, List.map_congr_left hmain]
  simp [hnew, List.append_assoc]

/-- Storing a header under a fresh id (not yet in the presentation order)
does not change the rendering. -/
theorem renderDoc_open {cfg : GitConfig} (inv : DocInv cfg) (h : ParsedSectionHeader) :
    renderDoc { cfg with
      sectionHeaders := cfg.sectionHeaders ++ [(cfg.sectionIdCounter, h)] } = renderDoc cfg := by
  rw [renderDoc_eq, renderDoc_eq]
  have hmain : ∀ sid ∈ cfg.sectionOrder,
      renderSec { cfg with
        sectionHeaders := cfg.sectionHeaders ++ [(cfg.sectionIdCounter, h)] } sid =
        renderSec cfg sid := by
    intro sid hmem
    have hlt : sid < cfg.sectionIdCounter := by
      rw [inv.order_eq] at hmem
      exact List.mem_range.mp hmem
    have hne : sid ≠ cfg.sectionIdCounter := Nat.ne_of_lt hlt
    simp only [renderSec, sectionBody]
    rw [assocFind_append_single_ne _ _ _ _ hne]
  rw [List.map_congr_left hmain]

theorem frontInv_renderDoc {cfg : GitConfig} (h : FrontInv cfg) :
    renderDoc cfg = renderEvents cfg.frontMatterEvents := by
  rw [renderDoc_eq, h.order_empty]
  simp

/-- Main builder correctness: from a consistent intermediate state, a
successful run of the event loop yields a fully consistent document whose
rendering extends the state's rendering by exactly the source bytes of the
consumed events. -/
theorem buildGo_spec : ∀ (evs : List Event) (cfg : GitConfig)
    (cursor : Option (ParsedSectionHeader × List Event)) (out : GitConfig),
    BuildOk cfg cursor → buildGo cfg cursor evs = some out →
    DocInv out ∧ renderDoc out = renderDoc cfg ++ renderCursor cursor ++ renderStream evs := by
  intro evs
  induction evs with
  | nil =>
    intro cfg cursor out hok hrun
    simp only [buildGo, Option.some.injEq] at hrun
    subst hrun
    cases cursor with
    | none =>
      exact ⟨frontInv_docInv hok, by simp [pushSectionTop, renderCursor, renderStream, renderEvents]⟩
    | some hb =>
      obtain ⟨h, buf⟩ := hb
      refine ⟨pendInv_flush hok buf, ?_⟩
      rw [renderDoc_flush hok buf]
      simp [renderCursor, renderStream, renderEvents, List.append_assoc]
  | cons e rest ih =>
    intro cfg cursor out hok hrun
    have hstream : renderStream (e :: rest) = renderEvent e ++ renderStream rest := by
      simp [renderStream, renderEvents]
    cases e with
    | sectionHeader h2 =>
      simp only [buildGo] at hrun
      have hdoc1 : DocInv (pushSectionTop cfg cursor) := by
        cases cursor with
        | none => exact frontInv_docInv hok
        | some hb => obtain ⟨h, buf⟩ := hb; exact pendInv_flush hok buf
      have hrender1 : renderDoc (pushSectionTop cfg cursor) =
          renderDoc cfg ++ renderCursor cursor := by
        cases cursor with
        | none => simp [pushSectionTop, renderCursor]
        | some hb =>
          obtain ⟨h, buf⟩ := hb
          rw [renderDoc_flush hok buf]
          simp [renderCursor, List.append_assoc]
      have hrun2 : buildGo
          { pushSectionTop cfg cursor with
            sectionHeaders := (pushSectionTop cfg cursor).sectionHeaders ++
              [((pushSectionTop cfg cursor).sectionIdCounter, h2)] }
          (some (h2, [])) rest = some out := hrun
      have hok2 : BuildOk
          { pushSectionTop cfg cursor with
            sectionHeaders := (pushSectionTop cfg cursor).sectionHeaders ++
              [((pushSectionTop cfg cursor).sectionIdCounter, h2)] }
          (some (h2, [])) := docInv_open hdoc1 h2
      obtain ⟨hdocOut, hrenderOut⟩ := ih _ _ _ hok2 hrun2
      refine ⟨hdocOut, ?_⟩
      rw [hrenderOut, renderDoc_open hdoc1 h2, hrender1, hstream]
      simp [renderCursor, renderEvent, renderEvents, List.append_assoc]
    | key k =>
      simp only [buildGo] at hrun
      cases cursor with
      | none => simp at hrun
      | some hb =>
        obtain ⟨h, buf⟩ := hb
        have hrun2 : buildGo cfg (some (h, buf ++ [Event.key k])) rest = some out := hrun
        have hok2 : BuildOk cfg (some (h, buf ++ [Event.key k])) := hok
        obtain ⟨hdocOut, hrenderOut⟩ := ih _ _ _ hok2 hrun2
        refine ⟨hdocOut, ?_⟩
        rw [hrenderOut, hstream]
        simp [renderCursor, renderEvents_append, renderEvent, renderEvents, List.append_assoc]
    | value v =>
      simp only [buildGo] at hrun
      cases cursor with
      | none => simp at hrun
      | some hb =>
        obtain ⟨h, buf⟩ := hb
        have hrun2 : buildGo cfg (some (h, buf ++ [Event.value v])) rest = some out := hrun
        have hok2 : BuildOk cfg (some (h, buf ++ [Event.value v])) := hok
        obtain ⟨hdocOut, hrenderOut⟩ := ih _ _ _ hok2 hrun2
        refine ⟨hdocOut, ?_⟩
        rw [hrenderOut, hstream]
        simp [renderCursor, renderEvents_append, renderEvent, renderEvents, List.append_assoc]
    | valueNotDone v =>
      simp only [buildGo] at hrun
      cases cursor with
      | none => simp at hrun
      | some hb =>
        obtain ⟨h, buf⟩ := hb
        have hrun2 : buildGo cfg (some (h, buf ++ [Event.valueNotDone v])) rest = some out := hrun
        have hok2 : BuildOk cfg (some (h, buf ++ [Event.valueNotDone v])) := hok
        obtain ⟨hdocOut, hrenderOut⟩ := ih _ _ _ hok2 hrun2
        refine ⟨hdocOut, ?_⟩
        rw [hrenderOut, hstream]
        simp [renderCursor, renderEvents_append, renderEvent, renderEvents, List.append_assoc]
    | valueDone v =>
      simp only [buildGo] at hrun
      cases cursor with
      | none => simp at hrun
      | some hb =>
        obtain ⟨h, buf⟩ := hb
        have hrun2 : buildGo cfg (some (h, buf ++ [Event.valueDone v])) rest = some out := hrun
        have hok2 : BuildOk cfg (some (h, buf ++ [Event.valueDone v])) := hok
        obtain ⟨hdocOut, hrenderOut⟩ := ih _ _ _ hok2 hrun2
        refine ⟨hdocOut, ?_⟩
        rw [hrenderOut, hstream]
        simp [renderCursor, renderEvents_append, renderEvent, renderEvents, List.append_assoc]
    | keyValueSeparator =>
      simp only [buildGo] at hrun
      cases cursor with
      | none => simp at hrun
      | some hb =>
        obtain ⟨h, buf⟩ := hb
        have hrun2 : buildGo cfg (some (h, buf ++ [Event.keyValueSeparator])) rest = some out := hrun
        have hok2 : BuildOk cfg (some (h, buf ++ [Event.keyValueSeparator])) := hok
        obtain ⟨hdocOut, hrenderOut⟩ := ih _ _ _ hok2 hrun2
        refine ⟨hdocOut, ?_⟩
        rw [hrenderOut, hstream]
        simp [renderCursor, renderEvents_append, renderEvent, renderEvents, List.append_assoc]
    | comment b =>
      simp only [buildGo] at hrun
      cases cursor with
      | none =>
        have hrun2 : buildGo
            { cfg with frontMatterEvents := cfg.frontMatterEvents ++ [Event.comment b] }
            none rest = some out := hrun
        have hok2 : BuildOk
            { cfg with frontMatterEvents := cfg.frontMatterEvents ++ [Event.comment b] } none :=
          ⟨hok.tree_empty, hok.sections_empty, hok.headers_empty, hok.counter_zero,
            hok.order_empty⟩
        obtain ⟨hdocOut, hrenderOut⟩ := ih _ _ _ hok2 hrun2
        refine ⟨hdocOut, ?_⟩
        rw [hrenderOut, hstream, frontInv_renderDoc hok2, frontInv_renderDoc hok]
        simp [renderCursor, renderEvents_append, renderEvent, renderEvents, List.append_assoc]
      | some hb =>
        obtain ⟨h, buf⟩ := hb
        have hrun2 : buildGo cfg (some (h, buf ++ [Event.comment b])) rest = some out := hrun
        have hok2 : BuildOk cfg (some (h, buf ++ [Event.comment b])) := hok
        obtain ⟨hdocOut, hrenderOut⟩ := ih _ _ _ hok2 hrun2
        refine ⟨hdocOut, ?_⟩
        rw [hrenderOut, hstream]
        simp [renderCursor, renderEvents_append, renderEvent, renderEvents, List.append_assoc]
    | newline b =>
      simp only [buildGo] at hrun
      cases cursor with
      | none =>
        have hrun2 : buildGo
            { cfg with frontMatterEvents := cfg.frontMatterEvents ++ [Event.newline b] }
            none rest = some out := hrun
        have hok2 : BuildOk
            { cfg with frontMatterEvents := cfg.frontMatterEvents ++ [Event.newline b] } none :=
          ⟨hok.tree_empty, hok.sections_empty, hok.headers_empty, hok.counter_zero,
            hok.order_empty⟩
        obtain ⟨hdocOut, hrenderOut⟩ := ih _ _ _ hok2 hrun2
        refine ⟨hdocOut, ?_⟩
        rw [hrenderOut, hstream, frontInv_renderDoc hok2, frontInv_renderDoc hok]
        simp [renderCursor, renderEvents_append, renderEvent, renderEvents, List.append_assoc]
      | some hb =>
        obtain ⟨h, buf⟩ := hb
        have hrun2 : buildGo cfg (some (h, buf ++ [Event.newline b])) rest = some out := hrun
        have hok2 : BuildOk cfg (some (h, buf ++ [Event.newline b])) := hok
        obtain ⟨hdocOut, hrenderOut⟩ := ih _ _ _ hok2 hrun2
        refine ⟨hdocOut, ?_⟩
        rw [hrenderOut, hstream]
        simp [renderCursor, renderEvents_append, renderEvent, renderEvents, List.append_assoc]
    | whitespace b =>
      simp only [buildGo] at hrun
      cases cursor with
      | none =>
        have hrun2 : buildGo
            { cfg with frontMatterEvents := cfg.frontMatterEvents ++ [Event.whitespace b] }
            none rest = some out := hrun
        have hok2 : BuildOk
            { cfg with frontMatterEvents := cfg.frontMatterEvents ++ [Event.whitespace b] } none :=
          ⟨hok.tree_empty, hok.sections_empty, hok.headers_empty, hok.counter_zero,
            hok.order_empty⟩
        obtain ⟨hdocOut, hrenderOut⟩ := ih _ _ _ hok2 hrun2
        refine ⟨hdocOut, ?_⟩
        rw [hrenderOut, hstream, frontInv_renderDoc hok2, frontInv_renderDoc hok]
        simp [renderCursor, renderEvents_append, renderEvent, renderEvents, List.append_assoc]
      | some hb =>
        obtain ⟨h, buf⟩ := hb
        have hrun2 : buildGo cfg (some (h, buf ++ [Event.whitespace b])) rest = some out := hrun
        have hok2 : BuildOk cfg (some (h, buf ++ [Event.whitespace b])) := hok
        obtain ⟨hdocOut, hrenderOut⟩ := ih _ _ _ hok2 hrun2
        refine ⟨hdocOut, ?_⟩
        rw [hrenderOut, hstream]
        simp [renderCursor, renderEvents_append, renderEvent, renderEvents, List.append_assoc]

theorem emptyConfig_frontInv : FrontInv emptyConfig :=
  ⟨rfl, rfl, rfl, rfl, rfl⟩

/-- `from_parser` correctness: a successfully built document satisfies the
document invariants and renders to the source bytes of its event stream. -/
theorem fromParser_spec {evs : List Event} {cfg : GitConfig}
    (h : fromParser evs = some cfg) :
    DocInv cfg ∧ renderDoc cfg = renderStream evs := by
  obtain ⟨hdoc, hrender⟩ := buildGo_spec evs emptyConfig none cfg emptyConfig_frontInv h
  refine ⟨hdoc, ?_⟩
  rw [hrender]
  simp [renderCursor, emptyConfig, renderDoc_eq, renderEvents]

/-! ## Resolution lemmas -/
theorem getSectionIds_ok_iff (cfg : GitConfig) (n : Bytes) (s : Option Bytes) (ids : List Nat) :
    getSectionIds cfg n s = .ok ids ↔ treeResolveOpt cfg.sectionLookupTree n s = some ids := by
  unfold getSectionIds treeResolveOpt
  cases h : assocFind cfg.sectionLookupTree n with
  | none => simp
  | some nodes =>
    cases hr : (match s with
                | some t => firstNonTerminalLookup nodes t
                | none => firstTerminal nodes) with
    | none => simp [hr]
    | some v => simp [hr]

theorem getSectionIds_err_section_iff (cfg : GitConfig) (n : Bytes) (s : Option Bytes) :
    getSectionIds cfg n s = .err (.sectionDoesNotExist n) ↔
      assocFind cfg.sectionLookupTree n = none := by
  unfold getSectionIds
  cases h : assocFind cfg.sectionLookupTree n with
  | none => simp
  | some nodes =>
    cases hr : (match s with
                | some t => firstNonTerminalLookup nodes t
                | none => firstTerminal nodes) with
    | none => simp [hr]
    | some v => simp [hr]

theorem getSectionIds_err_sub_iff (cfg : GitConfig) (n : Bytes) (s : Option Bytes)
    (nodes : List LookupTreeNode) (hf : assocFind cfg.sectionLookupTree n = some nodes) :
    getSectionIds cfg n s = .err (.subSectionDoesNotExist s) ↔
      (match s with
       | some t => firstNonTerminalLookup nodes t
       | none => firstTerminal nodes) = none := by
  unfold getSectionIds
  rw [hf]
  cases hr : (match s with
              | some t => firstNonTerminalLookup nodes t
              | none => firstTerminal nodes) with
  | none => simp [hr]
  | some v => simp [hr]

/-- Under the document invariants, resolution succeeds exactly with the
non-empty insertion-ordered list of matching section ids. -/
theorem resolve_ok_iff {cfg : GitConfig} (inv : DocInv cfg) (n : Bytes) (s : Option Bytes)
    (ids : List Nat) :
    getSectionIds cfg n s = .ok ids ↔
      (ids = matchingIdsH cfg.sectionHeaders n s ∧ ids ≠ []) := by
  rw [getSectionIds_ok_iff, inv.tree_resolve n s]
  by_cases hm : matchingIdsH cfg.sectionHeaders n s = []
  · simp only [if_pos hm]
    constructor
    · intro h; exact Option.noConfusion h
    · rintro ⟨h1, h2⟩; exact absurd (h1.trans hm) h2
  · simp only [if_neg hm]
    constructor
    · intro h
      injection h with h2
      subst h2
      exact ⟨rfl, hm⟩
    · rintro ⟨h1, _⟩
      rw [h1]

/-! ## Order facts about matching ids -/
theorem matchingIdsH_sublist (hs : List (Nat × ParsedSectionHeader)) (n : Bytes)
    (s : Option Bytes) : (matchingIdsH hs n s).Sublist (hs.map Prod.fst) :=
  (List.filter_sublist hs).map Prod.fst

theorem matchingIdsH_sorted {hs : List (Nat × ParsedSectionHeader)} {c : Nat}
    (hkeys : hs.map Prod.fst = List.range c) (n : Bytes) (s : Option Bytes) :
    (matchingIdsH hs n s).Sorted (· < ·) := by
  have hsub : (matchingIdsH hs n s).Sublist (List.range c) := by
    rw [← hkeys]; exact matchingIdsH_sublist hs n s
  exact List.Pairwise.sublist hsub (List.pairwise_lt_range c)

theorem matchingIdsH_lt {hs : List (Nat × ParsedSectionHeader)} {c : Nat}
    (hkeys : hs.map Prod.fst = List.range c) (n : Bytes) (s : Option Bytes) :
    ∀ i ∈ matchingIdsH hs n s, i < c := by
  intro i hi
  have hsub : (matchingIdsH hs n s).Sublist (List.range c) := by
    rw [← hkeys]; exact matchingIdsH_sublist hs n s
  exact List.mem_range.mp (hsub.subset hi)

theorem matchingIdsH_nodup {hs : List (Nat × ParsedSectionHeader)} {c : Nat}
    (hkeys : hs.map Prod.fst = List.range c) (n : Bytes) (s : Option Bytes) :
    (matchingIdsH hs n s).Nodup := by
  have hsub : (matchingIdsH hs n s).Sublist (List.range c) := by
    rw [← hkeys]; exact matchingIdsH_sublist hs n s
  exact (List.nodup_range c).sublist hsub

theorem le_foldl_max : ∀ (t : List Nat) (a : Nat),
    a ≤ t.foldl max a ∧ ∀ j ∈ t, j ≤ t.foldl max a := by
  intro t
  induction t with
  | nil => intro a; exact ⟨Nat.le_refl a, by simp⟩
  | cons b t ih =>
    intro a
    have h := ih (max a b)
    constructor
    · exact Nat.le_trans (le_max_left a b) h.1
    · intro j hj
      rcases List.mem_cons.mp hj with hj | hj
      · subst hj
        exact Nat.le_trans (le_max_right a j) h.1
      · exact h.2 j hj

theorem foldl_max_mem : ∀ (t : List Nat) (a : Nat),
    t.foldl max a = a ∨ t.foldl max a ∈ t := by
  intro t
  induction t with
  | nil => intro a; exact Or.inl rfl
  | cons b t ih =>
    intro a
    rcases ih (max a b) with h | h
    · rcases max_choice a b with hm | hm
      · left; simp only [List.foldl_cons]; rw [h, hm]
      · right; simp only [List.foldl_cons]; rw [h, hm]; exact List.mem_cons_self b t
    · right
      exact List.mem_cons_of_mem b h

theorem foldl_max_sorted_getLastD : ∀ (t : List Nat) (a : Nat),
    (∀ x ∈ t, a ≤ x) → t.Sorted (· < ·) → t.foldl max a = t.getLastD a := by
  intro t
  induction t with
  | nil => intro a _ _; rfl
  | cons b t ih =>
    intro a hle hsorted
    have hab : max a b = b := max_eq_right (hle b (List.mem_cons_self b t))
    have hbt : ∀ x ∈ t, b ≤ x := by
      intro x hx
      exact Nat.le_of_lt ((List.pairwise_cons.mp hsorted).1 x hx)
    simp only [List.foldl_cons, hab, List.getLastD_cons]
    exact ih b hbt (List.pairwise_cons.mp hsorted).2

/-- For a non-empty list, `max?` returns a member that bounds every
element. -/
theorem max?_spec (l : List Nat) (hne : l ≠ []) :
    ∃ m, l.max? = some m ∧ m ∈ l ∧ ∀ j ∈ l, j ≤ m := by
  cases l with
  | nil => exact absurd rfl hne
  | cons a t =>
    refine ⟨t.foldl max a, by rw [List.max?_cons'], ?_, ?_⟩
    · rcases foldl_max_mem t a with h | h
      · rw [h]; exact List.mem_cons_self a t
      · exact List.mem_cons_of_mem a h
    · intro j hj
      rcases List.mem_cons.mp hj with hj | hj
      · subst hj; exact (le_foldl_max t j).1
      · exact (le_foldl_max t a).2 j hj

/-- For a sorted list, `max?` is the last element. -/
theorem max?_eq_getLast?_of_sorted (l : List Nat) (hs : l.Sorted (· < ·)) :
    l.max? = l.getLast? := by
  cases l with
  | nil => rfl
  | cons a t =>
    have hle : ∀ x ∈ t, a ≤ x := by
      intro x hx
      exact Nat.le_of_lt ((List.pairwise_cons.mp hs).1 x hx)
    have hfold := foldl_max_sorted_getLastD t a hle (List.pairwise_cons.mp hs).2
    rw [List.max?_cons', hfold]
    cases t with
    | nil => rfl
    | cons b u =>
      rw [List.getLast?_cons_cons, List.getLastD_eq_getLast?]
      cases hy : (b :: u).getLast? with
      | none =>
        have h2 := List.getLast?_eq_none_iff.mp hy
        simp at h2
      | some y => rfl

/-- On a well-formed body, the code's `found_key` capture protocol
collects exactly the values owned by the queried key, and the final flag
records whether that key is left pending. -/
theorem collect_eq_owned (key : Bytes) :
    ∀ (evs : List Event) (p : Option Bytes), wfFrom evs p.isSome = true →
      collectValues key evs (p == some key) =
        (ownedScan key evs p, pendAfter evs p == some key) := by
  intro evs
  induction evs with
  | nil => intro p _; simp [collectValues, ownedScan, pendAfter]
  | cons e rest ih =>
    intro p hwf
    cases e with
    | key k =>
      simp only [wfFrom, Bool.and_eq_true, Bool.not_eq_true'] at hwf
      have hp : p = none := by
        cases p with
        | none => rfl
        | some q => simp at hwf
      subst hp
      have := ih (some k) (by simpa using hwf.2)
      simp only [collectValues, ownedScan, pendAfter]
      by_cases hk : k = key
      · subst hk
        simpa using this
      · have h1 : ((none : Option Bytes) == some key) = false := rfl
        have h2 : ((some k : Option Bytes) == some key) = false := by
          simp [hk]
        rw [h1] at *
        simp only [hk, if_false]
        rw [← h2]
        exact this
    | value v =>
      simp only [wfFrom] at hwf
      have := ih none (by simpa using hwf)
      simp only [collectValues, ownedScan, pendAfter]
      by_cases hp : p = some key
      · subst hp
        simp only [show ((some key : Option Bytes) == some key) = true from by simp] at *
        simp only [if_true]
        rw [show ((none : Option Bytes) == some key) = false from rfl] at this
        simp [this]
      · have hfalse : (p == some key) = false := by
          simp [hp]
        rw [hfalse]
        simp only [hp, if_false]
        rw [show ((none : Option Bytes) == some key) = false from rfl] at this
        simp [this]
    | valueNotDone v =>
      simp only [wfFrom, Bool.and_eq_true, Bool.not_eq_true'] at hwf
      have hp : p = none := by
        cases p with
        | none => rfl
        | some q => simp at hwf
      subst hp
      have := ih none (by simpa using hwf.2)
      simp only [collectValues, ownedScan, pendAfter]
      simpa using this
    | valueDone v =>
      simp only [wfFrom, Bool.and_eq_true, Bool.not_eq_true'] at hwf
      have hp : p = none := by
        cases p with
        | none => rfl
        | some q => simp at hwf
      subst hp
      have := ih none (by simpa using hwf.2)
      simp only [collectValues, ownedScan, pendAfter]
      simpa using this
    | sectionHeader h =>
      simp only [wfFrom] at hwf
      have := ih p hwf
      simpa [collectValues, ownedScan, pendAfter] using this
    | keyValueSeparator =>
      simp only [wfFrom] at hwf
      have := ih p hwf
      simpa [collectValues, ownedScan, pendAfter] using this
    | comment b =>
      simp only [wfFrom] at hwf
      have := ih p hwf
      simpa [collectValues, ownedScan, pendAfter] using this
    | newline b =>
      simp only [wfFrom] at hwf
      have := ih p hwf
      simpa [collectValues, ownedScan, pendAfter] using this
    | whitespace b =>
      simp only [wfFrom] at hwf
      have := ih p hwf
      simpa [collectValues, ownedScan, pendAfter] using this

/-- On a well-formed body the capture protocol, started with a clear
flag, collects exactly the owned values of the key. -/
theorem collectValues_wf (key : Bytes) (evs : List Event) (hwf : wfBody evs = true) :
    collectValues key evs false =
      (ownedValues key evs, pendAfter evs none == some key) := by
  have := collect_eq_owned key evs none (by simpa [wfBody] using hwf)
  simpa [ownedValues] using this

theorem getLast?_cons {α : Type} (a : α) (l : List α) :
    (a :: l).getLast? = some (l.getLast?.getD a) := by
  induction l generalizing a with
  | nil => rfl
  | cons b t ih =>
    rw [List.getLast?_cons_cons, ih b]
    cases ht : t.getLast? with
    | none =>
      have h2 := List.getLast?_eq_none_iff.mp ht
      subst h2
      rfl
    | some y => simp [ih, ht]

/-- The single-value scan returns the last value the multi-value capture
protocol collects (from the same starting flag). -/
theorem lastValueOf_eq_getLast (key : Bytes) :
    ∀ (evs : List Event) (found : Bool),
      lastValueOf key evs found = ((collectValues key evs found).1).getLast? := by
  intro evs
  induction evs with
  | nil => intro found; rfl
  | cons e rest ih =>
    intro found
    cases e with
    | key k => simp only [lastValueOf, collectValues]; exact ih _
    | value v =>
      by_cases hf : found
      · subst hf
        simp only [lastValueOf, collectValues, if_true]
        rw [getLast?_cons, ih false]
      · simp only [lastValueOf, collectValues, hf, if_false]
        exact ih _
    | valueNotDone v => simp only [lastValueOf, collectValues]; exact ih _
    | valueDone v => simp only [lastValueOf, collectValues]; exact ih _
    | sectionHeader h => simp only [lastValueOf, collectValues]; exact ih _
    | keyValueSeparator => simp only [lastValueOf, collectValues]; exact ih _
    | comment b => simp only [lastValueOf, collectValues]; exact ih _
    | newline b => simp only [lastValueOf, collectValues]; exact ih _
    | whitespace b => simp only [lastValueOf, collectValues]; exact ih _

/-! ## Claim theorems -/

/-- C1: for every document built from an input byte string `B`, rendering
the document (front-matter events, then for each section id in insertion
order its header followed by its events) without any intervening mutation
yields exactly `B`, byte for byte; in particular the empty input renders
to the empty string. -/
theorem c1_render_round_trip (evs : List Event) (cfg : GitConfig)
    (h : fromParser evs = some cfg) : renderDoc cfg = renderStream evs :=
  (fromParser_spec h).2

theorem c1_witness :
    fromParser evsA = some cfgA ∧ renderDoc cfgA = renderStream evsA ∧
    fromParser [] = some emptyConfig ∧ renderDoc emptyConfig = ([] : Bytes) := by
  refine ⟨by decide, c1_render_round_trip evsA cfgA (by decide), rfl, ?_⟩
  have h := c1_render_round_trip [] emptyConfig rfl
  simpa [renderStream, renderEvents] using h

/-- C6: lookup resolution fails with `SectionDoesNotExist(N)` exactly when
no section named `N` exists; when `N` exists (i.e. its node list is in the
tree), it fails with `SubSectionDoesNotExist(S)` exactly when the required
node kind is absent (no `NonTerminal` entry for the given `S`, or no
`Terminal` node when `S` is absent — then signalled with `none`); and a
successful resolution always returns a non-empty id list. -/
theorem c6_lookup_resolution (evs : List Event) (cfg : GitConfig)
    (hb : fromParser evs = some cfg) (n : Bytes) (s : Option Bytes) :
    (getSectionIds cfg n s = .err (.sectionDoesNotExist n) ↔
      ¬ ∃ p ∈ cfg.sectionHeaders, p.2.name = n)
    ∧ (∀ nodes, assocFind cfg.sectionLookupTree n = some nodes →
        (getSectionIds cfg n s = .err (.subSectionDoesNotExist s) ↔
          (match s with
           | some t => firstNonTerminalLookup nodes t
           | none => firstTerminal nodes) = none))
    ∧ (∀ ids, getSectionIds cfg n s = .ok ids → ids ≠ []) := by
  obtain ⟨inv, _⟩ := fromParser_spec hb
  refine ⟨?_, ?_, ?_⟩
  · rw [getSectionIds_err_section_iff, ← Option.not_isSome_iff_eq_none]
    exact not_congr (inv.tree_keys n)
  · intro nodes hf
    exact getSectionIds_err_sub_iff cfg n s nodes hf
  · intro ids hok
    exact ((resolve_ok_iff inv n s ids).mp hok).2

theorem c6_witness :
    getSectionIds cfgA (bs "foo") none = .err (.sectionDoesNotExist (bs "foo")) ∧
    (¬ ∃ p ∈ cfgA.sectionHeaders, p.2.name = bs "foo") ∧
    getSectionIds cfgA (bs "core") none = .ok [0, 1] ∧ ([0, 1] : List Nat) ≠ [] := by
  have h := c6_lookup_resolution evsA cfgA (by decide) (bs "foo") none
  have h2 := c6_lookup_resolution evsA cfgA (by decide) (bs "core") none
  exact ⟨by decide, h.1.mp (by decide), by decide, h2.2.2 [0, 1] (by decide)⟩

/-- C2 (amended): when the lookup resolves, the resolved ids are exactly
the ids of the sections matching (N, S), in source order; `get_raw_value`
selects the maximum (= latest duplicate) id among them, and returns the
last value captured by the `found_key` protocol in that one section,
failing with `KeyDoesNotExist(K)` when nothing is captured there.  When
the keys and plain values of that section alternate (document invariant
§3), the returned value is the last value *owned* by `K`, so it belongs
to an assignment of `K`.  (Without the alternation hypothesis the claim's
last clause is false: the flag-based scan is not reset by other `Key` or
continuation events and can return a value belonging to a different key —
see the counterexample.) -/
theorem c2_get_raw_value_amended (evs : List Event) (cfg : GitConfig)
    (hb : fromParser evs = some cfg) (n : Bytes) (s : Option Bytes) (key : Bytes)
    (ids : List Nat) (hres : getSectionIds cfg n s = .ok ids) :
    ids = matchingIdsH cfg.sectionHeaders n s
    ∧ (∃ sid, ids.max? = some sid ∧ sid ∈ ids ∧ (∀ j ∈ ids, j ≤ sid) ∧
        ids.getLast? = some sid
        ∧ getRawValue cfg n s key =
          (match lastValueOf key (sectionBody cfg sid) false with
           | some v => .ok v
           | none => .err (.keyDoesNotExist key))
        ∧ (wfBody (sectionBody cfg sid) = true →
            getRawValue cfg n s key =
              (match (ownedValues key (sectionBody cfg sid)).getLast? with
               | some v => .ok v
               | none => .err (.keyDoesNotExist key)))) := by
  obtain ⟨inv, _⟩ := fromParser_spec hb
  obtain ⟨hmatch, hne⟩ := (resolve_ok_iff inv n s ids).mp hres
  have hsorted : ids.Sorted (· < ·) := by
    rw [hmatch]; exact matchingIdsH_sorted inv.headers_keys n s
  obtain ⟨sid, hmax, hmem, hbound⟩ := max?_spec ids hne
  refine ⟨hmatch, sid, hmax, hmem, hbound, ?_, ?_, ?_⟩
  · rw [← max?_eq_getLast?_of_sorted ids hsorted]; exact hmax
  · simp only [getRawValue, hres, hmax]
  · intro hwf
    simp only [getRawValue, hres, hmax, lastValueOf_eq_getLast, collectValues_wf key _ hwf]

theorem c2_witness :
    ([0, 1] : List Nat) = matchingIdsH cfgA.sectionHeaders (bs "core") none ∧
    getRawValue cfgA (bs "core") none (bs "a") = .ok (bs "d") ∧
    wfBody (sectionBody cfgA 1) = true ∧
    (ownedValues (bs "a") (sectionBody cfgA 1)).getLast? = some (bs "d") := by
  have h := c2_get_raw_value_amended evsA cfgA (by decide) (bs "core") none (bs "a")
    [0, 1] (by decide)
  exact ⟨h.1, by decide, by decide, by decide⟩

/-- C2 counterexample: on the document built from
`"[core]\na=x\\\ny\nb=c"` (key `a` has a continued value, key `b` has the
plain value `c`), `get_raw_value("core", none, "a")` returns `"c"` — a
value that is owned by key `b` and not by the queried key `a`.  The
claim's clause "the value returned always belongs to an assignment of the
queried key K, never to a different key" is therefore false as stated. -/
theorem c2_counterexample :
    fromParser evsG = some cfgG
    ∧ getRawValue cfgG (bs "core") none (bs "a") = .ok (bs "c")
    ∧ bs "c" ∉ ownedValues (bs "a") (sectionBody cfgG 0)
    ∧ bs "c" ∈ ownedValues (bs "b") (sectionBody cfgG 0) := by
  exact ⟨by decide, by decide, by decide, by decide⟩

theorem foldl_append_collect (key : Bytes) (cfg : GitConfig) :
    ∀ (ids : List Nat) (acc : List Bytes),
      ids.foldl (fun acc sid => acc ++ (collectValues key (sectionBody cfg sid) false).1) acc
        = acc ++ multiVals cfg key ids := by
  intro ids
  induction ids with
  | nil => intro acc; simp [multiVals]
  | cons sid rest ih =>
    intro acc
    simp only [List.foldl_cons, ih, multiVals, List.flatMap_cons, List.append_assoc]

theorem getRawValue_of_err (cfg : GitConfig) (n : Bytes) (s : Option Bytes) (key : Bytes)
    (e : GitConfigError) (h : getSectionIds cfg n s = .err e) :
    getRawValue cfg n s key = .err e := by
  simp [getRawValue, h]

theorem getRawMultiValue_of_err (cfg : GitConfig) (n : Bytes) (s : Option Bytes) (key : Bytes)
    (e : GitConfigError) (h : getSectionIds cfg n s = .err e) :
    getRawMultiValue cfg n s key = .err e := by
  simp [getRawMultiValue, h]

theorem getRawMultiValue_of_ok (cfg : GitConfig) (n : Bytes) (s : Option Bytes) (key : Bytes)
    (ids : List Nat) (h : getSectionIds cfg n s = .ok ids) :
    getRawMultiValue cfg n s key =
      (if multiVals cfg key ids = [] then .err (.keyDoesNotExist key)
       else .ok (multiVals cfg key ids)) := by
  simp only [getRawMultiValue, h, foldl_append_collect, List.nil_append]

theorem getRawValue_of_ok (cfg : GitConfig) (n : Bytes) (s : Option Bytes) (key : Bytes)
    (ids : List Nat) (h : getSectionIds cfg n s = .ok ids) :
    getRawValue cfg n s key = .err (.keyDoesNotExist key) ∨
      ∃ v, getRawValue cfg n s key = .ok v := by
  simp only [getRawValue, h]
  cases hmax : ids.max? with
  | none => left; simp
  | some sid =>
    cases hlv : lastValueOf key (sectionBody cfg sid) false with
    | none => left; simp [hlv]
    | some v => right; exact ⟨v, by simp [hlv]⟩

/-- C4 (amended): `get_raw_value` and `get_raw_multi_value` agree on the
section and subsection errors; a multi-value key failure implies a
single-value key failure; on a resolved id list the ids are strictly
sorted (so multi-value results come in non-decreasing (section-id,
in-section-position) order) and the multi-value result is the
concatenation of the per-section captures in that order; and whenever
`get_raw_value` succeeds, `get_raw_multi_value` also succeeds and its
final element is `get_raw_value`'s result.  (The original claim's full
success/failure agreement is false: the multi-value query can succeed
while the single-value query — which scans only the latest duplicate
section — fails with `KeyDoesNotExist`; see the counterexample.) -/
theorem c4_query_agreement_amended (evs : List Event) (cfg : GitConfig)
    (hb : fromParser evs = some cfg) (n : Bytes) (s : Option Bytes) (key : Bytes) :
    (getRawValue cfg n s key = .err (.sectionDoesNotExist n) ↔
      getRawMultiValue cfg n s key = .err (.sectionDoesNotExist n))
    ∧ (getRawValue cfg n s key = .err (.subSectionDoesNotExist s) ↔
      getRawMultiValue cfg n s key = .err (.subSectionDoesNotExist s))
    ∧ (getRawMultiValue cfg n s key = .err (.keyDoesNotExist key) →
        getRawValue cfg n s key = .err (.keyDoesNotExist key))
    ∧ (∀ ids, getSectionIds cfg n s = .ok ids →
        ids.Sorted (· < ·)
        ∧ getRawMultiValue cfg n s key =
          (if multiVals cfg key ids = [] then .err (.keyDoesNotExist key)
           else .ok (multiVals cfg key ids)))
    ∧ (∀ v, getRawValue cfg n s key = .ok v →
        ∃ vs, getRawMultiValue cfg n s key = .ok vs ∧ vs.getLast? = some v) := by
  obtain ⟨inv, _⟩ := fromParser_spec hb
  have hsorted : ∀ ids, getSectionIds cfg n s = .ok ids → ids.Sorted (· < ·) := by
    intro ids hok
    rw [((resolve_ok_iff inv n s ids).mp hok).1]
    exact matchingIdsH_sorted inv.headers_keys n s
  refine ⟨?_, ?_, ?_, ?_, ?_⟩
  · constructor
    · intro h
      cases hres : getSectionIds cfg n s with
      | err e =>
        rw [getRawValue_of_err cfg n s key e hres] at h
        injection h with h2
        subst h2
        exact getRawMultiValue_of_err cfg n s key _ hres
      | ok ids =>
        rcases getRawValue_of_ok cfg n s key ids hres with h2 | ⟨v, h2⟩ <;>
          rw [h2] at h <;> simp at h
    · intro h
      cases hres : getSectionIds cfg n s with
      | err e =>
        rw [getRawMultiValue_of_err cfg n s key e hres] at h
        injection h with h2
        subst h2
        exact getRawValue_of_err cfg n s key _ hres
      | ok ids =>
        rw [getRawMultiValue_of_ok cfg n s key ids hres] at h
        by_cases hm : multiVals cfg key ids = [] <;> simp [hm] at h
  · constructor
    · intro h
      cases hres : getSectionIds cfg n s with
      | err e =>
        rw [getRawValue_of_err cfg n s key e hres] at h
        injection h with h2
        subst h2
        exact getRawMultiValue_of_err cfg n s key _ hres
      | ok ids =>
        rcases getRawValue_of_ok cfg n s key ids hres with h2 | ⟨v, h2⟩ <;>
          rw [h2] at h <;> simp at h
    · intro h
      cases hres : getSectionIds cfg n s with
      | err e =>
        rw [getRawMultiValue_of_err cfg n s key e hres] at h
        injection h with h2
        subst h2
        exact getRawValue_of_err cfg n s key _ hres
      | ok ids =>
        rw [getRawMultiValue_of_ok cfg n s key ids hres] at h
        by_cases hm : multiVals cfg key ids = [] <;> simp [hm] at h
  · intro h
    cases hres : getSectionIds cfg n s with
    | err e =>
      rw [getRawMultiValue_of_err cfg n s key e hres] at h
      injection h with h2
      subst h2
      exact getRawValue_of_err cfg n s key _ hres
    | ok ids =>
      rw [getRawMultiValue_of_ok cfg n s key ids hres] at h
      by_cases hm : multiVals cfg key ids = []
      · have hem : ∀ sid ∈ ids, (collectValues key (sectionBody cfg sid) false).1 = [] :=
          List.flatMap_eq_nil_iff.mp hm
        have hne : ids ≠ [] := ((resolve_ok_iff inv n s ids).mp hres).2
        obtain ⟨sid, hmax, hmem, _⟩ := max?_spec ids hne
        simp only [getRawValue, hres, hmax, lastValueOf_eq_getLast, hem sid hmem]
        rfl
      · simp [hm] at h
  · intro ids hok
    exact ⟨hsorted ids hok, getRawMultiValue_of_ok cfg n s key ids hok⟩
  · intro v h
    cases hres : getSectionIds cfg n s with
    | err e =>
      rw [getRawValue_of_err cfg n s key e hres] at h
      exact absurd h (by simp)
    | ok ids =>
      have hne : ids ≠ [] := ((resolve_ok_iff inv n s ids).mp hres).2
      obtain ⟨sid, hmax, hmem, _⟩ := max?_spec ids hne
      have hlast : ids.getLast? = some sid := by
        rw [← max?_eq_getLast?_of_sorted ids (hsorted ids hres)]
        exact hmax
      obtain ⟨init, hsplit⟩ := List.getLast?_eq_some_iff.mp hlast
      simp only [getRawValue, hres, hmax] at h
      cases hlv : lastValueOf key (sectionBody cfg sid) false with
      | none => rw [hlv] at h; exact absurd h (by simp)
      | some w =>
        rw [hlv] at h
        injection h with h2
        have hcoll : ((collectValues key (sectionBody cfg sid) false).1).getLast? = some v := by
          rw [← lastValueOf_eq_getLast, hlv, h2]
        have hcne : (collectValues key (sectionBody cfg sid) false).1 ≠ [] := by
          intro hc
          rw [hc] at hcoll
          exact Option.noConfusion hcoll
      
        have hmv : multiVals cfg key ids =
            multiVals cfg key init ++ (collectValues key (sectionBody cfg sid) false).1 := by
          rw [hsplit]
          simp [multiVals, List.flatMap_append]
        have hmvne : multiVals cfg key ids ≠ [] := by
          rw [hmv]
          intro hc
          exact hcne (List.append_eq_nil.mp hc).2
        refine ⟨multiVals cfg key ids, ?_, ?_⟩
        · rw [getRawMultiValue_of_ok cfg n s key ids hres, if_neg hmvne]
        · rw [hmv, List.getLast?_append, hcoll]
          rfl

/-- C4 counterexample: on the document built from
`"[core]a=b\n[core]\nc=d"` (two `core` sections; only the first contains
key `a`), `get_raw_value("core", none, "a")` fails with
`KeyDoesNotExist("a")` — it scans only the latest duplicate section —
while `get_raw_multi_value("core", none, "a")` succeeds with `["b"]`.
The claim that the two queries agree on success versus failure is false. -/
theorem c4_counterexample :
    fromParser evsE = some cfgE
    ∧ getRawValue cfgE (bs "core") none (bs "a") = .err (.keyDoesNotExist (bs "a"))
    ∧ getRawMultiValue cfgE (bs "core") none (bs "a") = .ok [bs "b"] := by
  exact ⟨by decide, by decide, by decide⟩

theorem c4_witness :
    getRawValue cfgA (bs "core") none (bs "a") = .ok (bs "d")
    ∧ getRawMultiValue cfgA (bs "core") none (bs "a") = .ok [bs "b", bs "c", bs "d"]
    ∧ [bs "b", bs "c", bs "d"].getLast? = some (bs "d") := by
  have h := (c4_query_agreement_amended evsA cfgA (by decide) (bs "core") none (bs "a")).2.2.2.2
    (bs "d") (by decide)
  exact ⟨by decide, by decide, by decide⟩

/-! ## Mutation lemmas (C5) -/
theorem lastValueIdx_none_iff (key : Bytes) :
    ∀ (evs : List Event) (found : Bool),
      lastValueIdx key evs found = none ↔ lastValueOf key evs found = none := by
  intro evs
  induction evs with
  | nil => intro found; simp [lastValueIdx, lastValueOf]
  | cons e rest ih =>
    intro found
    cases e with
    | key k =>
      simpa [lastValueIdx, lastValueOf, Option.map_eq_none'] using
        ih (if k = key then true else found)
    | value v =>
      cases found with
      | true =>
        simp only [lastValueIdx, lastValueOf, if_true]
        constructor
        · intro h
          cases hr : lastValueIdx key rest false <;> rw [hr] at h <;> exact Option.noConfusion h
        · intro h; exact Option.noConfusion h
      | false =>
        simpa [lastValueIdx, lastValueOf, Option.map_eq_none'] using ih false
    | valueNotDone v =>
      simpa [lastValueIdx, lastValueOf, Option.map_eq_none'] using ih found
    | valueDone v =>
      simpa [lastValueIdx, lastValueOf, Option.map_eq_none'] using ih found
    | sectionHeader h =>
      simpa [lastValueIdx, lastValueOf, Option.map_eq_none'] using ih found
    | keyValueSeparator =>
      simpa [lastValueIdx, lastValueOf, Option.map_eq_none'] using ih found
    | comment b =>
      simpa [lastValueIdx, lastValueOf, Option.map_eq_none'] using ih found
    | newline b =>
      simpa [lastValueIdx, lastValueOf, Option.map_eq_none'] using ih found
    | whitespace b =>
      simpa [lastValueIdx, lastValueOf, Option.map_eq_none'] using ih found

/-- Characterisation of the position referenced by `get_raw_value_mut`:
the event there is a value event, the single-value scan returns its
payload, and overwriting it makes the scan return the new payload. -/
theorem lastValueIdx_spec (key : Bytes) :
    ∀ (evs : List Event) (found : Bool) (i : Nat),
      lastValueIdx key evs found = some i →
      ∃ pre old suf, evs = pre ++ .value old :: suf ∧ pre.length = i ∧
        lastValueOf key evs found = some old ∧
        ∀ nv, lastValueOf key (pre ++ .value nv :: suf) found = some nv := by
  intro evs
  induction evs with
  | nil => intro found i h; exact Option.noConfusion h
  | cons e rest ih =>
    intro found i h
    cases e with
    | key k =>
      simp only [lastValueIdx] at h
      cases hr : lastValueIdx key rest (if k = key then true else found) with
      | none => rw [hr] at h; exact Option.noConfusion h
      | some j =>
        rw [hr] at h
        injection h with h2
        obtain ⟨pre, old, suf, hsplit, hlen, hlast, hset⟩ := ih _ _ hr
        refine ⟨.key k :: pre, old, suf, by rw [hsplit]; rfl, by simp [hlen, h2], ?_, ?_⟩
        · simp only [lastValueOf]; exact hlast
        · intro nv
          simp only [List.cons_append, lastValueOf]
          exact hset nv
    | value v =>
      cases found with
      | true =>
        have hunf : ∀ l, lastValueOf key (Event.value v :: l) true =
            some ((lastValueOf key l false).getD v) := fun l => rfl
        simp only [lastValueIdx, if_true] at h
        cases hr : lastValueIdx key rest false with
        | some j =>
          rw [hr] at h
          injection h with h2
          obtain ⟨pre, old, suf, hsplit, hlen, hlast, hset⟩ := ih _ _ hr
          refine ⟨.value v :: pre, old, suf, by rw [hsplit]; rfl, by simp [hlen, h2], ?_, ?_⟩
          · rw [hsplit] at hlast ⊢
            rw [hunf (pre ++ Event.value old :: suf), hlast]
            rfl
          · intro nv
            rw [List.cons_append, hunf (pre ++ Event.value nv :: suf), hset nv]
            rfl
        | none =>
          rw [hr] at h
          injection h with h2
          have hnone : lastValueOf key rest false = none :=
            (lastValueIdx_none_iff key rest false).mp hr
          refine ⟨[], v, rest, rfl, h2 ▸ rfl, ?_, ?_⟩
          · rw [hunf rest, hnone]
            rfl
          · intro nv
            have hunf2 : lastValueOf key (Event.value nv :: rest) true =
                some ((lastValueOf key rest false).getD nv) := rfl
            rw [List.nil_append, hunf2, hnone]
            rfl
      | false =>
        have hunf : ∀ l, lastValueOf key (Event.value v :: l) false =
            lastValueOf key l false := fun l => rfl
        have hunfI : lastValueIdx key (Event.value v :: rest) false =
            (lastValueIdx key rest false).map (· + 1) := rfl
        rw [hunfI] at h
        cases hr : lastValueIdx key rest false with
        | none => rw [hr] at h; exact Option.noConfusion h
        | some j =>
          rw [hr] at h
          injection h with h2
          obtain ⟨pre, old, suf, hsplit, hlen, hlast, hset⟩ := ih _ _ hr
          refine ⟨.value v :: pre, old, suf, by rw [hsplit]; rfl, by simp [hlen, h2], ?_, ?_⟩
          · rw [hunf rest]; exact hlast
          · intro nv
            rw [List.cons_append, hunf (pre ++ Event.value nv :: suf)]
            exact hset nv
    | valueNotDone v =>
      simp only [lastValueIdx] at h
      cases hr : lastValueIdx key rest found with
      | none => rw [hr] at h; exact Option.noConfusion h
      | some j =>
        rw [hr] at h
        injection h with h2
        obtain ⟨pre, old, suf, hsplit, hlen, hlast, hset⟩ := ih _ _ hr
        refine ⟨.valueNotDone v :: pre, old, suf, by rw [hsplit]; rfl, by simp [hlen, h2], ?_, ?_⟩
        · simp only [lastValueOf]; exact hlast
        · intro nv
          simp only [List.cons_append, lastValueOf]
          exact hset nv
    | valueDone v =>
      simp only [lastValueIdx] at h
      cases hr : lastValueIdx key rest found with
      | none => rw [hr] at h; exact Option.noConfusion h
      | some j =>
        rw [hr] at h
        injection h with h2
        obtain ⟨pre, old, suf, hsplit, hlen, hlast, hset⟩ := ih _ _ hr
        refine ⟨.valueDone v :: pre, old, suf, by rw [hsplit]; rfl, by simp [hlen, h2], ?_, ?_⟩
        · simp only [lastValueOf]; exact hlast
        · intro nv
          simp only [List.cons_append, lastValueOf]
          exact hset nv
    | sectionHeader h3 =>
      simp only [lastValueIdx] at h
      cases hr : lastValueIdx key rest found with
      | none => rw [hr] at h; exact Option.noConfusion h
      | some j =>
        rw [hr] at h
        injection h with h2
        obtain ⟨pre, old, suf, hsplit, hlen, hlast, hset⟩ := ih _ _ hr
        refine ⟨.sectionHeader h3 :: pre, old, suf, by rw [hsplit]; rfl, by simp [hlen, h2], ?_, ?_⟩
        · simp only [lastValueOf]; exact hlast
        · intro nv
          simp only [List.cons_append, lastValueOf]
          exact hset nv
    | keyValueSeparator =>
      simp only [lastValueIdx] at h
      cases hr : lastValueIdx key rest found with
      | none => rw [hr] at h; exact Option.noConfusion h
      | some j =>
        rw [hr] at h
        injection h with h2
        obtain ⟨pre, old, suf, hsplit, hlen, hlast, hset⟩ := ih _ _ hr
        refine ⟨.keyValueSeparator :: pre, old, suf, by rw [hsplit]; rfl, by simp [hlen, h2], ?_, ?_⟩
        · simp only [lastValueOf]; exact hlast
        · intro nv
          simp only [List.cons_append, lastValueOf]
          exact hset nv
    | comment b =>
      simp only [lastValueIdx] at h
      cases hr : lastValueIdx key rest found with
      | none => rw [hr] at h; exact Option.noConfusion h
      | some j =>
        rw [hr] at h
        injection h with h2
        obtain ⟨pre, old, suf, hsplit, hlen, hlast, hset⟩ := ih _ _ hr
        refine ⟨.comment b :: pre, old, suf, by rw [hsplit]; rfl, by simp [hlen, h2], ?_, ?_⟩
        · simp only [lastValueOf]; exact hlast
        · intro nv
          simp only [List.cons_append, lastValueOf]
          exact hset nv
    | newline b =>
      simp only [lastValueIdx] at h
      cases hr : lastValueIdx key rest found with
      | none => rw [hr] at h; exact Option.noConfusion h
      | some j =>
        rw [hr] at h
        injection h with h2
        obtain ⟨pre, old, suf, hsplit, hlen, hlast, hset⟩ := ih _ _ hr
        refine ⟨.newline b :: pre, old, suf, by rw [hsplit]; rfl, by simp [hlen, h2], ?_, ?_⟩
        · simp only [lastValueOf]; exact hlast
        · intro nv
          simp only [List.cons_append, lastValueOf]
          exact hset nv
    | whitespace b =>
      simp only [lastValueIdx] at h
      cases hr : lastValueIdx key rest found with
      | none => rw [hr] at h; exact Option.noConfusion h
      | some j =>
        rw [hr] at h
        injection h with h2
        obtain ⟨pre, old, suf, hsplit, hlen, hlast, hset⟩ := ih _ _ hr
        refine ⟨.whitespace b :: pre, old, suf, by rw [hsplit]; rfl, by simp [hlen, h2], ?_, ?_⟩
        · simp only [lastValueOf]; exact hlast
        · intro nv
          simp only [List.cons_append, lastValueOf]
          exact hset nv

theorem set_append_cons {α : Type} (pre : List α) (x y : α) (suf : List α) :
    (pre ++ x :: suf).set pre.length y = pre ++ y :: suf := by
  induction pre with
  | nil => rfl
  | cons a t ih => simp [List.set, ih]

theorem renderSecs_replace (cfg : GitConfig) (sid : Nat) (newB : List Event) :
    ∀ (ord : List Nat), sid ∉ ord →
      (ord.map (renderSec { cfg with sections := assocReplace cfg.sections sid newB })).flatten
        = (ord.map (renderSec cfg)).flatten := by
  intro ord
  induction ord with
  | nil => intro _; rfl
  | cons a t ih =>
    intro hmem
    have hne : a ≠ sid := fun h => hmem (h ▸ List.mem_cons_self a t)
    simp only [List.map_cons, List.flatten_cons]
    rw [ih (fun h => hmem (List.mem_cons_of_mem a h))]
    congr 1
    simp only [renderSec, sectionBody]
    rw [assocFind_replace_other _ _ _ _ hne]

theorem renderSec_replace_self (cfg : GitConfig) (sid : Nat) (newB : List Event)
    (hsome : (assocFind cfg.sections sid).isSome = true) :
    renderSec { cfg with sections := assocReplace cfg.sections sid newB } sid =
      (match assocFind cfg.sectionHeaders sid with
       | some h => h.raw
       | none => []) ++ renderEvents newB := by
  simp only [renderSec, sectionBody]
  rw [assocFind_replace_self]
  cases hf : assocFind cfg.sections sid with
  | none => rw [hf] at hsome; exact absurd hsome (by simp)
  | some b => simp [hf]

theorem range_split (c sid : Nat) (h : sid < c) :
    ∃ o1 o2, List.range c = o1 ++ sid :: o2 ∧ sid ∉ o1 ∧ sid ∉ o2 := by
  have hmem : sid ∈ List.range c := List.mem_range.mpr h
  obtain ⟨o1, o2, hsplit⟩ := List.append_of_mem hmem
  have hnd : (List.range c).Nodup := List.nodup_range c
  rw [hsplit, List.nodup_append] at hnd
  obtain ⟨h1, h2, hdisj⟩ := hnd
  refine ⟨o1, o2, hsplit, ?_, ?_⟩
  · intro hs; exact hdisj hs (List.mem_cons_self sid o2)
  · intro hs; exact (List.nodup_cons.mp h2).1 hs

theorem renderDoc_split (cfg : GitConfig) (o1 o2 : List Nat) (sid : Nat)
    (horder : cfg.sectionOrder = o1 ++ sid :: o2) :
    renderDoc cfg = renderEvents cfg.frontMatterEvents ++
      ((o1.map (renderSec cfg)).flatten ++
        (renderSec cfg sid ++ (o2.map (renderSec cfg)).flatten)) := by
  rw [renderDoc_eq, horder]
  simp [List.append_assoc]

/-- C5: after `set_raw_value(N, S, K, V)` succeeds on a document built
from an input, `get_raw_value(N, S, K)` returns `V`; and the rendering of
the mutated document differs from the input only in the bytes of the one
overwritten value event: the input splits as `A ++ old ++ B` (with `old`
the previous value, returned by `get_raw_value` before the mutation) and
the new rendering is `A ++ V ++ B` — every other event (keys, separators,
trivia, headers, other values) renders unchanged inside `A` and `B`. -/
theorem c5_set_raw_value (evs : List Event) (cfg cfg' : GitConfig) (n : Bytes)
    (s : Option Bytes) (key v : Bytes)
    (hb : fromParser evs = some cfg)
    (hset : setRawValue cfg n s key v = .ok cfg') :
    getRawValue cfg' n s key = .ok v
    ∧ ∃ A old B, getRawValue cfg n s key = .ok old
        ∧ renderStream evs = A ++ old ++ B
        ∧ renderDoc cfg' = A ++ v ++ B := by
  obtain ⟨inv, hrender⟩ := fromParser_spec hb
  cases hres : getSectionIds cfg n s with
  | err e =>
    simp only [setRawValue, hres] at hset
    exact absurd hset (by simp)
  | ok ids =>
    simp only [setRawValue, hres] at hset
    have hne : ids ≠ [] := ((resolve_ok_iff inv n s ids).mp hres).2
    have hmatch : ids = matchingIdsH cfg.sectionHeaders n s :=
      ((resolve_ok_iff inv n s ids).mp hres).1
    obtain ⟨sid, hmax, hmem, _⟩ := max?_spec ids hne
    rw [hmax] at hset
    have hset1 : (match lastValueIdx key (sectionBody cfg sid) false with
        | none => (CfgResult.err (GitConfigError.keyDoesNotExist key) : CfgResult GitConfig)
        | some i => CfgResult.ok { cfg with
            sections := assocReplace cfg.sections sid
              ((sectionBody cfg sid).set i (Event.value v)) }) = CfgResult.ok cfg' := hset
    cases hidx : lastValueIdx key (sectionBody cfg sid) false with
    | none => rw [hidx] at hset1; exact absurd hset1 (by simp)
    | some i =>
      rw [hidx] at hset1
      have hset2 : CfgResult.ok ({ cfg with
          sections := assocReplace cfg.sections sid
            ((sectionBody cfg sid).set i (Event.value v)) } : GitConfig) =
          CfgResult.ok cfg' := hset1
      injection hset2 with hset
      have hsidlt : sid < cfg.sectionIdCounter :=
        matchingIdsH_lt inv.headers_keys n s sid (hmatch ▸ hmem)
      have hsidkeys : sid ∈ cfg.sections.map Prod.fst := by
        rw [inv.sections_keys]; exact List.mem_range.mpr hsidlt
      have hbodysome : (assocFind cfg.sections sid).isSome = true :=
        assocFind_isSome_of_mem _ _ hsidkeys
      obtain ⟨pre, old, suf, hsplit, hlen, hlast, hsetv⟩ := lastValueIdx_spec key _ _ _ hidx
      have hget_old : getRawValue cfg n s key = .ok old := by
        simp only [getRawValue, hres, hmax, hlast]
      have hnewbody : (sectionBody cfg sid).set i (.value v) = pre ++ .value v :: suf := by
        rw [hsplit, ← hlen]
        exact set_append_cons pre (.value old) (.value v) suf
      subst hset
      have hres2 : getSectionIds
          { cfg with sections := assocReplace cfg.sections sid ((sectionBody cfg sid).set i (Event.value v)) } n s = .ok ids := hres
      have hbody2 : sectionBody
          { cfg with sections := assocReplace cfg.sections sid ((sectionBody cfg sid).set i (Event.value v)) } sid =
          pre ++ .value v :: suf := by
        have hrepl : assocFind (assocReplace cfg.sections sid
            ((sectionBody cfg sid).set i (Event.value v))) sid =
            (assocFind cfg.sections sid).map
              (fun _ => (sectionBody cfg sid).set i (Event.value v)) :=
          assocFind_replace_self _ _ _
        have hunf : sectionBody
            { cfg with sections := assocReplace cfg.sections sid ((sectionBody cfg sid).set i (Event.value v)) } sid =
            (assocFind (assocReplace cfg.sections sid
              ((sectionBody cfg sid).set i (Event.value v))) sid).getD [] := rfl
        rw [hunf, hrepl]
        cases hf : assocFind cfg.sections sid with
        | none => rw [hf] at hbodysome; exact absurd hbodysome (by simp)
        | some b =>
          simp only [Option.map_some', Option.getD_some]
          exact hnewbody
      have hget_new : getRawValue
          { cfg with sections := assocReplace cfg.sections sid ((sectionBody cfg sid).set i (Event.value v)) } n s key = .ok v := by
        simp only [getRawValue, hres2, hmax, hbody2, hsetv v]
      refine ⟨hget_new, ?_⟩
      obtain ⟨o1, o2, hrsplit, hno1, hno2⟩ := range_split cfg.sectionIdCounter sid hsidlt
      have horder : cfg.sectionOrder = o1 ++ sid :: o2 := by rw [inv.order_eq, hrsplit]
      have horder2 : ({ cfg with sections := assocReplace cfg.sections sid ((sectionBody cfg sid).set i (Event.value v)) } :
          GitConfig).sectionOrder = o1 ++ sid :: o2 := horder
      refine ⟨renderEvents cfg.frontMatterEvents ++ (o1.map (renderSec cfg)).flatten ++
        ((match assocFind cfg.sectionHeaders sid with
          | some h => h.raw
          | none => []) ++ renderEvents pre), old,
        renderEvents suf ++ (o2.map (renderSec cfg)).flatten, hget_old, ?_, ?_⟩
      · rw [← hrender, renderDoc_split cfg o1 o2 sid horder]
        have hsec : renderSec cfg sid =
            (match assocFind cfg.sectionHeaders sid with
             | some h => h.raw
             | none => []) ++
              (renderEvents pre ++ (old ++ renderEvents suf)) := by
          simp [renderSec, hsplit, renderEvents_append, renderEvents, renderEvent,
            List.append_assoc]
        rw [hsec]
        simp [List.append_assoc]
      · rw [renderDoc_split _ o1 o2 sid horder2]
        have hfm2 : ({ cfg with sections := assocReplace cfg.sections sid ((sectionBody cfg sid).set i (Event.value v)) } :
            GitConfig).frontMatterEvents = cfg.frontMatterEvents := rfl
        rw [hfm2, renderSecs_replace cfg sid _ o1 hno1, renderSecs_replace cfg sid _ o2 hno2,
          renderSec_replace_self cfg sid _ hbodysome]
        have hrB : renderEvents ((sectionBody cfg sid).set i (Event.value v)) =
            renderEvents pre ++ (v ++ renderEvents suf) := by
          rw [hnewbody, renderEvents_append]
          have hov : renderEvents (Event.value v :: suf) = v ++ renderEvents suf := by
            simp [renderEvents, renderEvent]
          rw [hov]
        rw [hrB]
        simp [List.append_assoc]

theorem c5_witness :
    setRawValue cfgC (bs "core") none (bs "a") (bs "hello") = .ok cfgC2
    ∧ getRawValue cfgC2 (bs "core") none (bs "a") = .ok (bs "hello")
    ∧ renderDoc cfgC2 = bs "[core]\n\ta=hello" := by
  refine ⟨by decide, (c5_set_raw_value evsC cfgC cfgC2 (bs "core") none (bs "a") (bs "hello")
    (by decide) (by decide)).1, by decide⟩

theorem zipApply_nil_left (new : List Bytes) : zipApply [] new = [] := by
  simp [zipApply]

theorem zipApply_nil_right (old : List Bytes) : zipApply old [] = old := by
  simp [zipApply]

theorem zipApply_cons (v : Bytes) (old : List Bytes) (nv : Bytes) (new : List Bytes) :
    zipApply (v :: old) (nv :: new) = nv :: zipApply old new := by
  simp [zipApply]

theorem zipApply_length (old new : List Bytes) : (zipApply old new).length = old.length := by
  simp [zipApply]
  omega

theorem zipApply_append (A B s : List Bytes) :
    zipApply (A ++ B) s = zipApply A s ++ zipApply B (s.drop A.length) := by
  induction A generalizing s with
  | nil => simp [zipApply_nil_left]
  | cons a A ih =>
    cases s with
    | nil => simp [zipApply_nil_right]
    | cons x s =>
      simp only [List.cons_append, zipApply_cons, List.drop_succ_cons]
      rw [ih s]
      simp

/-- The mutation pass of `set_raw_multi_value` on one section body: the
final flag and leftover supply match the capture protocol, and re-scanning
the mutated body captures exactly the supply zipped onto the old captures. -/
theorem mutateBody_spec (key : Bytes) :
    ∀ (evs : List Event) (found : Bool) (supply : List Bytes),
      (mutateBody key evs found supply).2.1 = (collectValues key evs found).2
      ∧ (mutateBody key evs found supply).2.2 =
          supply.drop (collectValues key evs found).1.length
      ∧ collectValues key (mutateBody key evs found supply).1 found =
          (zipApply (collectValues key evs found).1 supply,
            (collectValues key evs found).2) := by
  intro evs
  induction evs with
  | nil =>
    intro found supply
    simp [mutateBody, collectValues, zipApply_nil_left]
  | cons e rest ih =>
    intro found supply
    cases e with
    | key k =>
      obtain ⟨ih1, ih2, ih3⟩ := ih (if k = key then true else found) supply
      refine ⟨?_, ?_, ?_⟩
      · simpa [mutateBody, collectValues] using ih1
      · simpa [mutateBody, collectValues] using ih2
      · simpa [mutateBody, collectValues] using ih3
    | value v =>
      cases found with
      | true =>
        cases supply with
        | cons nv sup =>
          obtain ⟨ih1, ih2, ih3⟩ := ih false sup
          refine ⟨?_, ?_, ?_⟩
          · simpa [mutateBody, collectValues] using ih1
          · simpa [mutateBody, collectValues] using ih2
          · show (nv :: (collectValues key (mutateBody key rest false sup).1 false).1,
                (collectValues key (mutateBody key rest false sup).1 false).2) =
              (zipApply (v :: (collectValues key rest false).1) (nv :: sup),
                (collectValues key rest false).2)
            rw [ih3, zipApply_cons]
        | nil =>
          obtain ⟨ih1, ih2, ih3⟩ := ih false []
          refine ⟨?_, ?_, ?_⟩
          · simpa [mutateBody, collectValues] using ih1
          · show (mutateBody key rest false []).2.2 = []
            rw [ih2]
            simp
          · show (v :: (collectValues key (mutateBody key rest false []).1 false).1,
                (collectValues key (mutateBody key rest false []).1 false).2) =
              (zipApply (v :: (collectValues key rest false).1) [],
                (collectValues key rest false).2)
            rw [ih3, zipApply_nil_right, zipApply_nil_right]
      | false =>
        obtain ⟨ih1, ih2, ih3⟩ := ih false supply
        exact ⟨ih1, ih2, ih3⟩
    | valueNotDone v =>
      obtain ⟨ih1, ih2, ih3⟩ := ih found supply
      exact ⟨by simpa [mutateBody, collectValues] using ih1,
        by simpa [mutateBody, collectValues] using ih2,
        by simpa [mutateBody, collectValues] using ih3⟩
    | valueDone v =>
      obtain ⟨ih1, ih2, ih3⟩ := ih found supply
      exact ⟨by simpa [mutateBody, collectValues] using ih1,
        by simpa [mutateBody, collectValues] using ih2,
        by simpa [mutateBody, collectValues] using ih3⟩
    | sectionHeader h =>
      obtain ⟨ih1, ih2, ih3⟩ := ih found supply
      exact ⟨by simpa [mutateBody, collectValues] using ih1,
        by simpa [mutateBody, collectValues] using ih2,
        by simpa [mutateBody, collectValues] using ih3⟩
    | keyValueSeparator =>
      obtain ⟨ih1, ih2, ih3⟩ := ih found supply
      exact ⟨by simpa [mutateBody, collectValues] using ih1,
        by simpa [mutateBody, collectValues] using ih2,
        by simpa [mutateBody, collectValues] using ih3⟩
    | comment b =>
      obtain ⟨ih1, ih2, ih3⟩ := ih found supply
      exact ⟨by simpa [mutateBody, collectValues] using ih1,
        by simpa [mutateBody, collectValues] using ih2,
        by simpa [mutateBody, collectValues] using ih3⟩
    | newline b =>
      obtain ⟨ih1, ih2, ih3⟩ := ih found supply
      exact ⟨by simpa [mutateBody, collectValues] using ih1,
        by simpa [mutateBody, collectValues] using ih2,
        by simpa [mutateBody, collectValues] using ih3⟩
    | whitespace b =>
      obtain ⟨ih1, ih2, ih3⟩ := ih found supply
      exact ⟨by simpa [mutateBody, collectValues] using ih1,
        by simpa [mutateBody, collectValues] using ih2,
        by simpa [mutateBody, collectValues] using ih3⟩

/-- Re-scanning the mutated bodies yields the supply zipped positionally
onto the original captures (in the same visit order). -/
theorem mutBodies_spec (key : Bytes) :
    ∀ (bodies : List (List Event)) (found : Bool) (supply : List Bytes),
      mutValuesGo key (mutBodies key bodies found supply) found =
        zipApply (mutValuesGo key bodies found) supply := by
  intro bodies
  induction bodies with
  | nil => intro found supply; simp [mutBodies, mutValuesGo, zipApply_nil_left]
  | cons b rest ih =>
    intro found supply
    obtain ⟨h1, h2, h3⟩ := mutateBody_spec key b found supply
    simp only [mutBodies, mutValuesGo]
    rw [h3, h1, h2, ih]
    rw [zipApply_append]

/-- `applyMut` rewrites exactly the sections named by `sids` (in order,
threading flag and supply) and leaves every other entry untouched. -/
theorem applyMut_spec (key : Bytes) :
    ∀ (sids : List Nat) (secs : List (Nat × List Event)) (found : Bool) (supply : List Bytes),
      sids.Nodup → (∀ sid ∈ sids, (assocFind secs sid).isSome = true) →
      (sids.map (fun sid => (assocFind (applyMut key secs sids found supply) sid).getD []))
        = mutBodies key (sids.map (fun sid => (assocFind secs sid).getD [])) found supply
      ∧ ∀ j, j ∉ sids → assocFind (applyMut key secs sids found supply) j = assocFind secs j := by
  intro sids
  induction sids with
  | nil => intro secs found supply _ _; exact ⟨rfl, fun j _ => rfl⟩
  | cons sid rest ih =>
    intro secs found supply hnd hsome
    have hsid_not_rest : sid ∉ rest := (List.nodup_cons.mp hnd).1
    have hrest_nd : rest.Nodup := (List.nodup_cons.mp hnd).2
    have hsome_sid : (assocFind secs sid).isSome = true :=
      hsome sid (List.mem_cons_self sid rest)
    have hrepl_other : ∀ j, j ≠ sid →
        assocFind (assocReplace secs sid
          (mutateBody key ((assocFind secs sid).getD []) found supply).1) j =
          assocFind secs j := by
      intro j hj
      exact assocFind_replace_other _ _ _ _ hj
    have hrest_some : ∀ s2 ∈ rest,
        (assocFind (assocReplace secs sid
          (mutateBody key ((assocFind secs sid).getD []) found supply).1) s2).isSome = true := by
      intro s2 hs2
      have hne : s2 ≠ sid := fun h => hsid_not_rest (h ▸ hs2)
      rw [hrepl_other s2 hne]
      exact hsome s2 (List.mem_cons_of_mem sid hs2)
    obtain ⟨ih1, ih2⟩ := ih (assocReplace secs sid
      (mutateBody key ((assocFind secs sid).getD []) found supply).1)
      (mutateBody key ((assocFind secs sid).getD []) found supply).2.1
      (mutateBody key ((assocFind secs sid).getD []) found supply).2.2
      hrest_nd hrest_some
    constructor
    · simp only [List.map_cons, applyMut, mutBodies]
      refine List.cons_eq_cons.mpr ⟨?_, ?_⟩
      · rw [ih2 sid hsid_not_rest]
        have hfind : assocFind (assocReplace secs sid
            (mutateBody key ((assocFind secs sid).getD []) found supply).1) sid =
            (assocFind secs sid).map
              (fun _ => (mutateBody key ((assocFind secs sid).getD []) found supply).1) :=
          assocFind_replace_self _ _ _
        rw [hfind]
        cases hf : assocFind secs sid with
        | none => rw [hf] at hsome_sid; exact absurd hsome_sid (by simp)
        | some b => simp
      · rw [ih1]
        congr 1
        apply List.map_congr_left
        intro s2 hs2
        have hne : s2 ≠ sid := fun h => hsid_not_rest (h ▸ hs2)
        rw [hrepl_other s2 hne]
    · intro j hj
      have hj1 : j ≠ sid := fun h => hj (h ▸ List.mem_cons_self sid rest)
      have hj2 : j ∉ rest := fun h => hj (List.mem_cons_of_mem sid h)
      simp only [applyMut]
      rw [ih2 j hj2, hrepl_other j hj1]

theorem assocFind_mem {α β : Type} [DecidableEq α] :
    ∀ (l : List (α × β)) (k : α) (b : β), assocFind l k = some b → (k, b) ∈ l := by
  intro l
  induction l with
  | nil => intro k b h; exact Option.noConfusion h
  | cons p t ih =>
    intro k b h
    obtain ⟨a, v⟩ := p
    by_cases ha : a = k
    · subst ha
      simp only [assocFind, if_pos rfl] at h
      injection h with h2
      subst h2
      exact List.mem_cons_self _ _
    · simp only [assocFind, if_neg ha] at h
      exact List.mem_cons_of_mem _ (ih k b h)

theorem mutValuesGo_flag_false (key : Bytes) :
    ∀ (bodies : List (List Event)),
      (∀ b ∈ bodies, (collectValues key b false).2 = false) →
      mutValuesGo key bodies false = bodies.flatMap (fun b => (collectValues key b false).1) := by
  intro bodies
  induction bodies with
  | nil => intro _; rfl
  | cons b rest ih =>
    intro hall
    simp only [mutValuesGo, List.flatMap_cons]
    rw [hall b (List.mem_cons_self b rest), ih (fun x hx => hall x (List.mem_cons_of_mem b hx))]

theorem order_filter_perm (order keys ids : List Nat) (hperm : order.Perm keys)
    (hkeys_nd : keys.Nodup) (hids_nd : ids.Nodup) (hsub : ∀ i ∈ ids, i ∈ keys) :
    (order.filter (fun sid => ids.contains sid)).Perm ids := by
  have h1 : (order.filter (fun sid => ids.contains sid)).Perm
      (keys.filter (fun sid => ids.contains sid)) := hperm.filter _
  refine h1.trans ?_
  rw [List.perm_ext_iff_of_nodup (hkeys_nd.filter _) hids_nd]
  intro a
  simp only [List.mem_filter]
  constructor
  · rintro ⟨_, h⟩; exact List.mem_of_elem_eq_true h
  · intro h; exact ⟨hsub a h, List.elem_eq_true_of_mem h⟩

theorem getRawMultiValueMutVals_of_err (order : List Nat) (cfg : GitConfig) (n : Bytes)
    (s : Option Bytes) (key : Bytes) (e : GitConfigError)
    (h : getSectionIds cfg n s = .err e) :
    getRawMultiValueMutVals order cfg n s key = .err e := by
  simp [getRawMultiValueMutVals, h]

theorem getRawMultiValueMutVals_of_ok (order : List Nat) (cfg : GitConfig) (n : Bytes)
    (s : Option Bytes) (key : Bytes) (ids : List Nat)
    (h : getSectionIds cfg n s = .ok ids) :
    getRawMultiValueMutVals order cfg n s key =
      (if mutValuesGo key (iterBodies cfg order ids) false = []
       then .err (.keyDoesNotExist key)
       else .ok (mutValuesGo key (iterBodies cfg order ids) false)) := by
  simp only [getRawMultiValueMutVals, h]

theorem flatMap_map_list {α β γ : Type} (f : α → β) (g : β → List γ) (l : List α) :
    (l.map f).flatMap g = l.flatMap (fun x => g (f x)) := by
  induction l with
  | nil => rfl
  | cons a t ih => simp [ih]

/-- C3 (amended): a successful `set_raw_multi_value` pairs the existing
value events of `K` positionally with `new_values` — but in the `HashMap`
iteration order over the matching sections (in-section positions in
source order), not in ascending-section-id source order: re-reading the
mutable references afterwards yields `new_values.take olds.length ++
olds.drop new_values.length`, so captures beyond `new_values.length` are
unchanged and extra new values are silently discarded.  When a single
section matches — as in the claim's example `"[core]\na=b\na=c"` with
`["x"]` — this coincides with source order and `get_raw_multi_value`
returns `["x","c"]`.  (The claim's source-order pairing is false when
several sections match and the map is iterated out of id order; see the
counterexample.) -/
theorem c3_set_raw_multi_value_amended (evs : List Event) (cfg cfg' : GitConfig)
    (hb : fromParser evs = some cfg) (order : List Nat)
    (hperm : order.Perm (cfg.sections.map Prod.fst))
    (n : Bytes) (s : Option Bytes) (key : Bytes) (newVals : List Bytes)
    (hset : setRawMultiValueO order cfg n s key newVals = .ok cfg') :
    (∃ olds, getRawMultiValueMutVals order cfg n s key = .ok olds
      ∧ olds ≠ []
      ∧ getRawMultiValueMutVals order cfg' n s key =
          .ok (newVals.take olds.length ++ olds.drop newVals.length))
    ∧ setRawMultiValueO [0] cfgD (bs "core") none (bs "a") [bs "x"] = .ok cfgD2
    ∧ getRawMultiValue cfgD2 (bs "core") none (bs "a") = .ok [bs "x", bs "c"] := by
  obtain ⟨inv, _⟩ := fromParser_spec hb
  refine ⟨?_, by decide, by decide⟩
  cases hres : getSectionIds cfg n s with
  | err e =>
    simp only [setRawMultiValueO, hres] at hset
    exact absurd hset (by simp)
  | ok ids =>
    simp only [setRawMultiValueO, hres] at hset
    by_cases hv : mutValuesGo key
        ((order.filter (fun sid => ids.contains sid)).map (sectionBody cfg)) false = []
    · rw [if_pos hv] at hset
      exact absurd hset (by simp)
    · rw [if_neg hv] at hset
      injection hset with hset
      obtain ⟨hmatch, hne⟩ := (resolve_ok_iff inv n s ids).mp hres
      have hkeys_nd : (cfg.sections.map Prod.fst).Nodup := by
        rw [inv.sections_keys]; exact List.nodup_range _
      have horder_nd : order.Nodup := hperm.symm.nodup hkeys_nd
      have hsids_nd : (order.filter (fun sid => ids.contains sid)).Nodup := horder_nd.filter _
      have hsome : ∀ sid ∈ order.filter (fun sid => ids.contains sid),
          (assocFind cfg.sections sid).isSome = true := by
        intro sid hsid
        have hin : sid ∈ ids := List.mem_of_elem_eq_true (List.mem_filter.mp hsid).2
        have hlt : sid < cfg.sectionIdCounter :=
          matchingIdsH_lt inv.headers_keys n s sid (hmatch ▸ hin)
        apply assocFind_isSome_of_mem
        rw [inv.sections_keys]
        exact List.mem_range.mpr hlt
      obtain ⟨hmaps, _⟩ := applyMut_spec key (order.filter (fun sid => ids.contains sid))
        cfg.sections false newVals hsids_nd hsome
      have hbodies2 : (order.filter (fun sid => ids.contains sid)).map
          (sectionBody { cfg with sections := applyMut key cfg.sections (order.filter (fun sid => ids.contains sid)) false newVals }) =
          mutBodies key ((order.filter (fun sid => ids.contains sid)).map (sectionBody cfg))
            false newVals := hmaps
      have hres2 : getSectionIds
          { cfg with sections := applyMut key cfg.sections (order.filter (fun sid => ids.contains sid)) false newVals } n s = .ok ids := hres
      refine ⟨mutValuesGo key
          ((order.filter (fun sid => ids.contains sid)).map (sectionBody cfg)) false,
          ?_, hv, ?_⟩
      · rw [getRawMultiValueMutVals_of_ok order cfg n s key ids hres]
        rw [show iterBodies cfg order ids =
          (order.filter (fun sid => ids.contains sid)).map (sectionBody cfg) from rfl]
        rw [if_neg hv]
      · have hne2 : zipApply (mutValuesGo key
            ((order.filter (fun sid => ids.contains sid)).map (sectionBody cfg)) false)
            newVals ≠ [] := by
          intro hc
          apply hv
          have hlen := congrArg List.length hc
          rw [zipApply_length] at hlen
          exact List.eq_nil_of_length_eq_zero hlen
        rw [← hset] at *
        rw [getRawMultiValueMutVals_of_ok order _ n s key ids hres2]
        rw [show iterBodies { cfg with sections := applyMut key cfg.sections (order.filter (fun sid => ids.contains sid)) false newVals } order ids =
          (order.filter (fun sid => ids.contains sid)).map
            (sectionBody { cfg with sections := applyMut key cfg.sections (order.filter (fun sid => ids.contains sid)) false newVals }) from rfl]
        rw [hbodies2, mutBodies_spec, if_neg hne2]
        rfl

theorem c3_witness :
    ([0] : List Nat).Perm (cfgD.sections.map Prod.fst)
    ∧ setRawMultiValueO [0] cfgD (bs "core") none (bs "a") [bs "x"] = .ok cfgD2
    ∧ getRawMultiValueMutVals [0] cfgD2 (bs "core") none (bs "a") = .ok [bs "x", bs "c"]
    ∧ getRawMultiValue cfgD2 (bs "core") none (bs "a") = .ok [bs "x", bs "c"] := by
  have h := c3_set_raw_multi_value_amended evsD cfgD cfgD2 (by decide) [0] (by decide)
    (bs "core") none (bs "a") [bs "x"] (by decide)
  exact ⟨by decide, h.2.1, by decide, h.2.2⟩

/-- C3 counterexample: on `"[core]a=b\n[core]a=c"` (two matching
sections), with the legal `HashMap` iteration order `[1, 0]`,
`set_raw_multi_value("core", none, "a", ["x"])` overwrites section 1's
`"c"` — not the positionally-first-in-source-order `"b"` — so
`get_raw_multi_value` returns `["b","x"]`, not the claimed `["x","c"]`. -/
theorem c3_counterexample :
    ([1, 0] : List Nat).Perm (cfgF.sections.map Prod.fst)
    ∧ setRawMultiValueO [1, 0] cfgF (bs "core") none (bs "a") [bs "x"] = .ok cfgF2
    ∧ getRawMultiValue cfgF2 (bs "core") none (bs "a") = .ok [bs "b", bs "x"]
    ∧ (CfgResult.ok [bs "b", bs "x"] : CfgResult (List Bytes)) ≠ .ok [bs "x", bs "c"] := by
  exact ⟨by decide, by decide, by decide, by decide⟩

/-- C10 (amended): `get_raw_multi_value_mut` resolves with exactly the
same error taxonomy as `get_raw_multi_value` and, on well-formed sections
(keys and plain values alternate and no key is left pending at a section
end, §3 invariant), it references exactly the same value events — as a
multiset: the mutable query visits the matching sections in the
`HashMap`'s unspecified iteration order, so its result is a permutation
of the immutable query's source-ordered result, not necessarily in the
same order (see the counterexample). -/
theorem c10_mut_query_amended (evs : List Event) (cfg : GitConfig)
    (hb : fromParser evs = some cfg) (order : List Nat)
    (hperm : order.Perm (cfg.sections.map Prod.fst))
    (n : Bytes) (s : Option Bytes) (key : Bytes)
    (hwf : ∀ p ∈ cfg.sections, wfBody p.2 = true ∧ pendAfter p.2 none = none) :
    (∀ e, getRawMultiValueMutVals order cfg n s key = .err e ↔
        getRawMultiValue cfg n s key = .err e)
    ∧ (∀ vs vs2, getRawMultiValueMutVals order cfg n s key = .ok vs →
        getRawMultiValue cfg n s key = .ok vs2 → vs.Perm vs2) := by
  obtain ⟨inv, _⟩ := fromParser_spec hb
  have hflag : ∀ sid : Nat, (collectValues key (sectionBody cfg sid) false).2 = false := by
    intro sid
    cases hf : assocFind cfg.sections sid with
    | none => simp [sectionBody, hf, collectValues]
    | some b =>
      have hmem := assocFind_mem _ _ _ hf
      obtain ⟨hwf1, hwf2⟩ := hwf (sid, b) hmem
      have hcw := collectValues_wf key b hwf1
      simp [sectionBody, hf, hcw, hwf2]
  cases hres : getSectionIds cfg n s with
  | err e =>
    refine ⟨fun e2 => ?_, fun vs vs2 h1 h2 => ?_⟩
    · rw [getRawMultiValueMutVals_of_err order cfg n s key e hres,
        getRawMultiValue_of_err cfg n s key e hres]
    · rw [getRawMultiValueMutVals_of_err order cfg n s key e hres] at h1
      exact absurd h1 (by simp)
  | ok ids =>
    obtain ⟨hmatch, hne⟩ := (resolve_ok_iff inv n s ids).mp hres
    have hkeys_nd : (cfg.sections.map Prod.fst).Nodup := by
      rw [inv.sections_keys]; exact List.nodup_range _
    have hids_nd : ids.Nodup := by
      rw [hmatch]; exact matchingIdsH_nodup inv.headers_keys n s
    have hsub : ∀ i ∈ ids, i ∈ cfg.sections.map Prod.fst := by
      intro i hi
      have hlt : i < cfg.sectionIdCounter :=
        matchingIdsH_lt inv.headers_keys n s i (hmatch ▸ hi)
      rw [inv.sections_keys]
      exact List.mem_range.mpr hlt
    have hsperm := order_filter_perm order _ ids hperm hkeys_nd hids_nd hsub
    have hmut : mutValuesGo key (iterBodies cfg order ids) false =
        (order.filter (fun sid => ids.contains sid)).flatMap
          (fun sid => (collectValues key (sectionBody cfg sid) false).1) := by
      rw [show iterBodies cfg order ids =
        (order.filter (fun sid => ids.contains sid)).map (sectionBody cfg) from rfl]
      rw [mutValuesGo_flag_false key _ ?hall, flatMap_map_list]
      case hall =>
        intro b hb2
        obtain ⟨sid, _, hbe⟩ := List.mem_map.mp hb2
        rw [← hbe]
        exact hflag sid
    have hvperm : (mutValuesGo key (iterBodies cfg order ids) false).Perm
        (multiVals cfg key ids) := by
      rw [hmut]
      exact hsperm.flatMap_right _
    refine ⟨fun e => ?_, fun vs vs2 h1 h2 => ?_⟩
    · rw [getRawMultiValueMutVals_of_ok order cfg n s key ids hres,
        getRawMultiValue_of_ok cfg n s key ids hres]
      by_cases hm : multiVals cfg key ids = []
      · have hm2 : mutValuesGo key (iterBodies cfg order ids) false = [] := by
          have h3 := hvperm
          rw [hm] at h3
          exact h3.eq_nil
        rw [if_pos hm, if_pos hm2]
      · have hm2 : mutValuesGo key (iterBodies cfg order ids) false ≠ [] := by
          intro hc
          apply hm
          have h3 := hvperm
          rw [hc] at h3
          exact (h3.symm).eq_nil
        rw [if_neg hm2, if_neg hm]
        constructor <;> intro h <;> exact absurd h (by simp)
    · rw [getRawMultiValueMutVals_of_ok order cfg n s key ids hres] at h1
      rw [getRawMultiValue_of_ok cfg n s key ids hres] at h2
      by_cases hm : multiVals cfg key ids = []
      · rw [if_pos hm] at h2
        exact absurd h2 (by simp)
      · have hm2 : mutValuesGo key (iterBodies cfg order ids) false ≠ [] := by
          intro hc
          apply hm
          have h3 := hvperm
          rw [hc] at h3
          exact (h3.symm).eq_nil
        rw [if_neg hm2] at h1
        rw [if_neg hm] at h2
        injection h1 with h1
        injection h2 with h2
        rw [← h1, ← h2]
        exact hvperm

theorem c10_witness :
    getRawMultiValueMutVals [0] cfgD (bs "core") none (bs "a") = .ok [bs "b", bs "c"]
    ∧ getRawMultiValue cfgD (bs "core") none (bs "a") = .ok [bs "b", bs "c"]
    ∧ ([bs "b", bs "c"] : List Bytes).Perm [bs "b", bs "c"] := by
  have h := (c10_mut_query_amended evsD cfgD (by decide) [0] (by decide)
    (bs "core") none (bs "a") (by decide)).2 [bs "b", bs "c"] [bs "b", bs "c"]
    (by decide) (by decide)
  exact ⟨by decide, by decide, h⟩

/-- C10 counterexample: on `"[core]a=b\n[core]a=c"` with the legal
`HashMap` iteration order `[1, 0]`, the mutable query references the
value events in the order `["c","b"]` while the immutable query returns
`["b","c"]`: same events, different order, refuting "in the same (source)
order". -/
theorem c10_counterexample :
    ([1, 0] : List Nat).Perm (cfgF.sections.map Prod.fst)
    ∧ getRawMultiValueMutVals [1, 0] cfgF (bs "core") none (bs "a") = .ok [bs "c", bs "b"]
    ∧ getRawMultiValue cfgF (bs "core") none (bs "a") = .ok [bs "b", bs "c"]
    ∧ ([bs "c", bs "b"] : List Bytes) ≠ [bs "b", bs "c"] := by
  exact ⟨by decide, by decide, by decide, by decide⟩

theorem buildGo_no_header_none :
    ∀ (pre : List Event) (cfg : GitConfig) (e : Event) (rest : List Event),
      (∀ x ∈ pre, x.isHeader = false) → e.isSectionOnly = true →
      buildGo cfg none (pre ++ e :: rest) = none := by
  intro pre
  induction pre with
  | nil =>
    intro cfg e rest _ he
    cases e with
    | key k => rfl
    | value v => rfl
    | valueNotDone v => rfl
    | valueDone v => rfl
    | keyValueSeparator => rfl
    | sectionHeader h => exact absurd he (by simp [Event.isSectionOnly])
    | comment b => exact absurd he (by simp [Event.isSectionOnly])
    | newline b => exact absurd he (by simp [Event.isSectionOnly])
    | whitespace b => exact absurd he (by simp [Event.isSectionOnly])
  | cons x t ih =>
    intro cfg e rest hpre he
    have hx := hpre x (List.mem_cons_self x t)
    have hrest : ∀ y ∈ t, y.isHeader = false := fun y hy => hpre y (List.mem_cons_of_mem x hy)
    cases x with
    | sectionHeader h => exact absurd hx (by simp [Event.isHeader])
    | key k => rfl
    | value v => rfl
    | valueNotDone v => rfl
    | valueDone v => rfl
    | keyValueSeparator => rfl
    | comment b => exact ih _ e rest hrest he
    | newline b => exact ih _ e rest hrest he
    | whitespace b => exact ih _ e rest hrest he

/-- C7: an event stream containing a `Key`, `Value`, `ValueNotDone`,
`ValueDone` or `KeyValueSeparator` event before any `SectionHeader` makes
`from_parser` fail (`.expect("Got a section-only event before a
section")`, modelled as `none`): the malformed input is reported rather
than the event being silently discarded into a document. -/
theorem c7_malformed_input (evs pre rest : List Event) (e : Event)
    (hsplit : evs = pre ++ e :: rest)
    (hpre : ∀ x ∈ pre, x.isHeader = false)
    (he : e.isSectionOnly = true) :
    fromParser evs = none := by
  rw [hsplit]
  exact buildGo_no_header_none pre emptyConfig e rest hpre he

theorem c7_witness :
    (Event.key (bs "a")).isSectionOnly = true ∧
    fromParser [Event.key (bs "a")] = none :=
  ⟨by decide, c7_malformed_input [Event.key (bs "a")] [] [] (Event.key (bs "a")) rfl
    (by intro x hx; exact absurd hx (by simp)) (by decide)⟩

/-- Per-step facts: the execute flag only ever stays or drops to `false`;
a deletion happens only when the interrupt was not observed; an emission
appends exactly the entry's index; and an emitting step that observes the
interrupt leaves the flag `false`. -/
theorem cleanStep_cases (opts : CleanOptions) (trig : Bool) (i : Nat) (st st' : CleanState)
    (e : CleanEntry) (h : cleanStep opts trig i st e = some st') :
    (st'.execute = st.execute ∨ st'.execute = false)
    ∧ (st'.deleted = st.deleted ∨ (trig = false ∧ st'.deleted = st.deleted ++ [i]))
    ∧ (st'.emitted = st.emitted ∨ st'.emitted = st.emitted ++ [i])
    ∧ (st'.emitted = st.emitted ++ [i] → trig = true → st'.execute = false) := by
  simp only [cleanStep] at h
  repeat' split at h
  all_goals first
    | exact Option.noConfusion h
    | (injection h with h; subst h; cases trig <;> refine ⟨?_, ?_, ?_, ?_⟩ <;> simp_all)

theorem cleanRunGo_spec (opts : CleanOptions) (interrupt : Nat → Bool) :
    ∀ (entries : List CleanEntry) (i0 : Nat) (st0 st : CleanState),
      cleanRunGo opts interrupt entries i0 st0 = some st →
      (st.execute = true → st0.execute = true)
      ∧ (∀ j ∈ st.deleted, j ∈ st0.deleted ∨ (i0 ≤ j ∧ interrupt j = false))
      ∧ (∀ j ∈ st.emitted, j ∈ st0.emitted ∨ (interrupt j = true → st.execute = false))
      ∧ (∀ j ∈ st.emitted, j ∈ st0.emitted ∨ j < i0 + entries.length) := by
  intro entries
  induction entries with
  | nil =>
    intro i0 st0 st h
    simp only [cleanRunGo, Option.some.injEq] at h
    subst h
    exact ⟨fun h2 => h2, fun j hj => Or.inl hj, fun j hj => Or.inl hj, fun j hj => Or.inl hj⟩
  | cons e rest ih =>
    intro i0 st0 st h
    simp only [cleanRunGo] at h
    cases hstep : cleanStep opts (interrupt i0) i0 st0 e with
    | none => rw [hstep] at h; exact Option.noConfusion h
    | some st1 =>
      rw [hstep] at h
      obtain ⟨hex, hdel, hemit, hbound⟩ := ih (i0 + 1) st1 st h
      obtain ⟨sex, sdel, semit, scond⟩ := cleanStep_cases opts (interrupt i0) i0 st0 st1 e hstep
      refine ⟨?_, ?_, ?_, ?_⟩
      · intro hx
        have h1 := hex hx
        rcases sex with hs | hs
        · rw [← hs]; exact h1
        · rw [hs] at h1; exact Bool.noConfusion h1
      · intro j hj
        rcases hdel j hj with hj1 | hj1
        · rcases sdel with hs | ⟨htrig, hs⟩
          · rw [hs] at hj1; exact Or.inl hj1
          · rw [hs] at hj1
            rcases List.mem_append.mp hj1 with hj2 | hj2
            · exact Or.inl hj2
            · have hji : j = i0 := by simpa using hj2
              subst hji
              exact Or.inr ⟨Nat.le_refl _, htrig⟩
        · exact Or.inr ⟨Nat.le_of_succ_le hj1.1, hj1.2⟩
      · intro j hj
        rcases hemit j hj with hj1 | hj1
        · rcases semit with hs | hs
          · rw [hs] at hj1; exact Or.inl hj1
          · rw [hs] at hj1
            rcases List.mem_append.mp hj1 with hj2 | hj2
            · exact Or.inl hj2
            · have hji : j = i0 := by simpa using hj2
              subst hji
              right
              intro htrig
              have hst1 : st1.execute = false := scond hs htrig
              cases hfinal : st.execute with
              | false => rfl
              | true =>
                have h2 := hex hfinal
                rw [hst1] at h2
                exact Bool.noConfusion h2
        · exact Or.inr hj1
      · intro j hj
        rcases hbound j hj with hj1 | hj1
        · rcases semit with hs | hs
          · rw [hs] at hj1; exact Or.inl hj1
          · rw [hs] at hj1
            rcases List.mem_append.mp hj1 with hj2 | hj2
            · exact Or.inl hj2
            · have hji : j = i0 := by simpa using hj2
              subst hji
              right
              simp only [List.length_cons]
              omega
        · right
          simp only [List.length_cons]
          omega

/-- C8: once the process-wide interrupt flag has been observed at an
emitted entry (it is checked after each emitted entry), no filesystem
deletion is performed for that entry or any later one — every recorded
deletion has a strictly smaller index; the run is permanently downgraded
to dry-run (`execute` is `false` at the end); the final report states
that the result may be incomplete; and the walk delegate cancels the
walker via its return value whenever the flag is observed. -/
theorem c8_interrupt_downgrade (opts : CleanOptions) (interrupt : Nat → Bool)
    (entries : List CleanEntry) (st : CleanState)
    (hmono : ∀ a b : Nat, a ≤ b → interrupt a = true → interrupt b = true)
    (hrun : cleanRun opts interrupt entries = some st)
    (i : Nat) (hemit : i ∈ st.emitted) (hobs : interrupt i = true) :
    (∀ j ∈ st.deleted, j < i)
    ∧ st.execute = false
    ∧ reportsIncomplete st (interrupt entries.length) = true
    ∧ (∀ a : WalkAction, interruptableEmit a true = .cancel) := by
  obtain ⟨hex, hdel, hemitted, hbound⟩ :=
    cleanRunGo_spec opts interrupt entries 0 (initCleanState opts) st hrun
  have hexec : st.execute = false := by
    rcases hemitted i hemit with h0 | h0
    · exact absurd h0 (by simp [initCleanState])
    · exact h0 hobs
  refine ⟨?_, hexec, ?_, fun a => rfl⟩
  · intro j hj
    rcases hdel j hj with h0 | ⟨_, hfalse⟩
    · exact absurd h0 (by simp [initCleanState])
    · by_contra hge
      push_neg at hge
      have := hmono i j hge hobs
      rw [this] at hfalse
      exact Bool.noConfusion hfalse
  · have hlen : i < entries.length := by
      rcases hbound i hemit with h0 | h0
      · exact absurd h0 (by simp [initCleanState])
      · simpa using h0
    have hend : interrupt entries.length = true := hmono i entries.length (Nat.le_of_lt hlen) hobs
    simp [reportsIncomplete, hexec, hend]

set_option maxHeartbeats 2000000 in
/-- C9: keep-decisions for an entry that survives the collapsed-child and
pathspec steps.  Status stage: `Untracked` is kept (and touches neither
skipped counter); `Ignored(Expendable)` is kept iff `ignored`, else
skipped-ignored is incremented; `Ignored(Precious)` is kept iff
`precious`, else skipped-precious is incremented.  Kind stage (on the
kind at the keep-filter stage, i.e. after the step-4 repository upgrade,
`effectiveKind`): `File`/`Symlink` are always kept;
`Directory`/`EmptyDirectory` are kept iff `directories`, else
skipped-directories is incremented; `Repository` is kept iff
`repositories`, else skipped-repositories is incremented.  "Kept" means
the entry is emitted (printed and passed to the delete/dry-run stage). -/
theorem c9_decision_pipeline (opts : CleanOptions) (trig : Bool) (i : Nat)
    (st st' : CleanState) (e : CleanEntry)
    (h : cleanStep opts trig i st e = some st')
    (hcol : e.collapsedChild = false) (hps : e.pathspecIncluded = true) :
    (e.status = .ignored .expendable → opts.ignored = false →
      st'.emitted = st.emitted ∧ st'.skippedIgnored = st.skippedIgnored + 1)
    ∧ (e.status = .ignored .expendable → opts.ignored = true →
      st'.skippedIgnored = st.skippedIgnored)
    ∧ (e.status = .ignored .precious → opts.precious = false →
      st'.emitted = st.emitted ∧ st'.skippedPrecious = st.skippedPrecious + 1)
    ∧ (e.status = .ignored .precious → opts.precious = true →
      st'.skippedPrecious = st.skippedPrecious)
    ∧ (e.status = .untracked →
      st'.skippedIgnored = st.skippedIgnored ∧ st'.skippedPrecious = st.skippedPrecious)
    ∧ ((e.status = .untracked ∨ (e.status = .ignored .expendable ∧ opts.ignored = true) ∨
        (e.status = .ignored .precious ∧ opts.precious = true)) →
      ((effectiveKind e.diskKind e.isRepoOnDisk = .file ∨
        effectiveKind e.diskKind e.isRepoOnDisk = .symlink) →
          st'.emitted = st.emitted ++ [i])
      ∧ ((effectiveKind e.diskKind e.isRepoOnDisk = .directory ∨
          effectiveKind e.diskKind e.isRepoOnDisk = .emptyDirectory) →
          (st'.emitted = st.emitted ++ [i] ↔ opts.directories = true)
          ∧ st'.skippedDirectories =
              st.skippedDirectories + (if opts.directories then 0 else 1))
      ∧ (effectiveKind e.diskKind e.isRepoOnDisk = .repository →
          (st'.emitted = st.emitted ++ [i] ↔ opts.repositories = true)
          ∧ st'.skippedRepositories =
              st.skippedRepositories + (if opts.repositories then 0 else 1))) := by
  simp only [cleanStep, hcol, hps, if_false, Bool.not_true, Bool.or_false] at h
  refine ⟨?_, ?_, ?_, ?_, ?_, ?_⟩
  · intro hstat hopt
    rw [hstat] at h
    simp only [isPrunedStatus, statusKeep, hopt, if_false, Bool.not_false, if_true] at h
    injection h with h
    subst h
    simp
  · intro hstat hopt
    rw [hstat] at h
    simp only [isPrunedStatus, statusKeep, hopt, if_true, Bool.not_true, if_false] at h
    repeat' split at h
    all_goals first
      | exact Option.noConfusion h
      | (injection h with h; subst h; simp; done)
      | simp_all
  · intro hstat hopt
    rw [hstat] at h
    simp only [isPrunedStatus, statusKeep, hopt, if_false, Bool.not_false, if_true] at h
    injection h with h
    subst h
    simp
  · intro hstat hopt
    rw [hstat] at h
    simp only [isPrunedStatus, statusKeep, hopt, if_true, Bool.not_true, if_false] at h
    repeat' split at h
    all_goals first
      | exact Option.noConfusion h
      | (injection h with h; subst h; simp; done)
      | simp_all
  · intro hstat
    rw [hstat] at h
    simp only [isPrunedStatus, statusKeep, Bool.not_true, if_false] at h
    repeat' split at h
    all_goals first
      | exact Option.noConfusion h
      | (injection h with h; subst h; simp; done)
      | simp_all
  · intro hpass
    have hred : cleanStep opts trig i st e = some st' → True := fun _ => trivial
    have hmain : ∀ dIgn dPrec : Nat,
        statusKeep opts e.status = some (true, dIgn, dPrec) →
        ((effectiveKind e.diskKind e.isRepoOnDisk = .file ∨
          effectiveKind e.diskKind e.isRepoOnDisk = .symlink) →
            st'.emitted = st.emitted ++ [i])
        ∧ ((effectiveKind e.diskKind e.isRepoOnDisk = .directory ∨
            effectiveKind e.diskKind e.isRepoOnDisk = .emptyDirectory) →
            (st'.emitted = st.emitted ++ [i] ↔ opts.directories = true)
            ∧ st'.skippedDirectories =
                st.skippedDirectories + (if opts.directories then 0 else 1))
        ∧ (effectiveKind e.diskKind e.isRepoOnDisk = .repository →
            (st'.emitted = st.emitted ++ [i] ↔ opts.repositories = true)
            ∧ st'.skippedRepositories =
                st.skippedRepositories + (if opts.repositories then 0 else 1)) := by
      intro dIgn dPrec hsk
      have hpruned : isPrunedStatus e.status = false := by
        rcases hpass with h1 | ⟨h1, _⟩ | ⟨h1, _⟩ <;> rw [h1] <;> rfl
      rw [hpruned] at h
      simp only [if_false, Bool.not_false, hsk, Bool.not_true] at h
      refine ⟨?_, ?_, ?_⟩
      · intro hkind
        rcases hkind with hk | hk <;>
          (simp only [hk, kindKeep, Bool.not_true, if_false] at h;
           repeat' split at h) <;>
          first
            | exact Option.noConfusion h
            | (injection h with h; subst h; simp [hk]; done)
            | simp_all
      · intro hkind
        by_cases hd : opts.directories = true
        · rcases hkind with hk | hk <;>
            (simp only [hk, kindKeep, hd, if_true, Bool.not_true, if_false] at h;
             repeat' split at h) <;>
            first
              | exact Option.noConfusion h
              | (injection h with h; subst h; simp [hk, hd]; done)
              | simp_all
        · have hd2 : opts.directories = false := by
            cases hval : opts.directories with
            | true => exact absurd hval hd
            | false => rfl
          rcases hkind with hk | hk <;>
            (simp only [hk, kindKeep, hd2, if_false, Bool.not_false, if_true] at h;
             repeat' split at h) <;>
            first
              | exact Option.noConfusion h
              | (injection h with h; subst h; simp [hk, hd2]; done)
              | simp_all
      · intro hk
        by_cases hr : opts.repositories = true
        · simp only [hk, kindKeep, hr, if_true, Bool.not_true, if_false] at h
          repeat' split at h
          all_goals first
            | exact Option.noConfusion h
            | (injection h with h; subst h; simp [hk, hr]; done)
            | simp_all
        · have hr2 : opts.repositories = false := by
            cases hval : opts.repositories with
            | true => exact absurd hval hr
            | false => rfl
          simp only [hk, kindKeep, hr2, if_false, Bool.not_false, if_true] at h
          repeat' split at h
          all_goals first
            | exact Option.noConfusion h
            | (injection h with h; subst h; simp [hk, hr2]; done)
            | simp_all
    rcases hpass with h1 | ⟨h1, h2⟩ | ⟨h1, h2⟩
    · exact hmain 0 0 (by rw [h1]; rfl)
    · exact hmain (if opts.ignored then 0 else 1) 0 (by rw [h1]; simp [statusKeep, h2])
    · exact hmain 0 (if opts.precious then 0 else 1) (by rw [h1]; simp [statusKeep, h2])

/-- Witness for C9: an untracked file entry with all toggles on is kept
(emitted) and the skipped-ignored counter is untouched. -/
theorem c9_witness :
    cleanStep optsW false 0 (initCleanState optsW) entryW = some stW
    ∧ stW.emitted = (initCleanState optsW).emitted ++ [0]
    ∧ stW.skippedIgnored = (initCleanState optsW).skippedIgnored := by
  have hstep : cleanStep optsW false 0 (initCleanState optsW) entryW = some stW := by decide
  have h := c9_decision_pipeline optsW false 0 (initCleanState optsW) stW entryW hstep
    (by decide) (by decide)
  exact ⟨hstep, (h.2.2.2.2.2 (Or.inl (by decide))).1 (Or.inl (by decide)),
    (h.2.2.2.2.1 (by decide)).1⟩

/-- Witness for C8: two untracked file entries with the interrupt flag
raised after the first deletion; the second entry is emitted but not
deleted, the run ends in dry-run mode and the summary reports a possibly
incomplete result. -/
theorem c8_witness :
    cleanRun optsX interruptX [entryX, entryX] = some stX
    ∧ 1 ∈ stX.emitted
    ∧ interruptX 1 = true
    ∧ (∀ j ∈ stX.deleted, j < 1)
    ∧ stX.execute = false
    ∧ reportsIncomplete stX (interruptX [entryX, entryX].length) = true := by
  have hrun : cleanRun optsX interruptX [entryX, entryX] = some stX := by decide
  have hmono : ∀ a b : Nat, a ≤ b → interruptX a = true → interruptX b = true := by
    intro a b hab ha
    simp only [interruptX, decide_eq_true_eq] at ha ⊢
    omega
  have hemit : (1 : Nat) ∈ stX.emitted := by decide
  have h := c8_interrupt_downgrade optsX interruptX [entryX, entryX] stX hmono hrun
    1 hemit (by decide)
  exact ⟨hrun, hemit, by decide, h.1, h.2.1, h.2.2.1⟩
